import Mathlib

/-!
Shallow embedding of the Othello rules engine of `src/src/App.tsx` and
verification of its specification.

Modelling conventions:
* TypeScript `Player` (`'black' | 'white'`) is `Player`; a `Cell`
  (`Player | null`) is `Option Player` with `none` for `null`.
* A `Board` (`Cell[][]`) is `List (List Cell)`.
* JavaScript array indexing `a[i]` yields `undefined` out of range; we model an
  access that may be `undefined` with `jsIndex : List α → Int → Option α`.
  Reading a property of `undefined` (as in `board[row][col]` when `board[row]`
  is `undefined`) throws a `TypeError`; functions that can throw return an
  `Option` result with `none` for the thrown exception.
* The `while` loops of `isValidMove` / `makeMove` walk one cell per iteration
  along a ray that stays inside the `boardSize × boardSize` bounds, so they
  iterate at most `boardSize` times; they are embedded as structural recursion
  on a fuel argument instantiated with `boardSize + 1`, which is never
  exhausted before the loop exits.
-/

namespace Othello

/-- The source union `type Player = 'black' | 'white'`. -/
inductive Player : Type where
  | black : Player
  | white : Player
deriving DecidableEq, Repr

/-- The source union `type Cell = Player | null`; here `none` is the JS `null` (empty cell). -/
abbrev Cell : Type := Option Player

/-- The source alias `type Board = Cell[][]`. -/
abbrev Board : Type := List (List Cell)

/-- The lookup `const opponent = player === 'black' ? 'white' : 'black'`. -/
def opponentOf : Player → Player
  | Player.black => Player.white
  | Player.white => Player.black

/-- JS array indexing `a[i]`: `none` models the JS `undefined` obtained when
`i` is out of range (including negative `i`). -/
def jsIndex (l : List α) (i : Int) : Option α :=
  if 0 ≤ i then l[i.toNat]? else none

/-- The cell of `b` at `(r, c)`; out-of-range reads give `none`.  Inside the
scan loops every access is bounds-checked by the `while` condition first, so
there this is exactly `board[r][c]`. -/
def getCell (b : Board) (r c : Int) : Cell :=
  match jsIndex b r with
  | none => none
  | some rw => (jsIndex rw c).getD none

/-- The write `newBoard[r][c] = v` (every write site of the source is in bounds). -/
def setCell (b : Board) (r c : Int) (v : Cell) : Board :=
  if 0 ≤ r ∧ 0 ≤ c then b.set r.toNat ((b.getD r.toNat []).set c.toNat v) else b

/-- The `while` condition `r >= 0 && r < boardSize && c >= 0 && c < boardSize`. -/
def inBounds (N : Nat) (r c : Int) : Bool :=
  decide (0 ≤ r ∧ r < (N : Int) ∧ 0 ≤ c ∧ c < (N : Int))

/-- The board is an `N × N` grid. -/
def IsSquare (b : Board) (N : Nat) : Prop :=
  b.length = N ∧ ∀ rw ∈ b, rw.length = N

instance (b : Board) (N : Nat) : Decidable (IsSquare b N) := by
  unfold IsSquare; infer_instance

/-- The 8 direction vectors of the source. -/
def directions : List (Int × Int) :=
  [(-1, -1), (-1, 0), (-1, 1), (0, -1), (0, 1), (1, -1), (1, 0), (1, 1)]

/-- Embedding of `createInitialBoard`: an all-`null` `size × size` grid with the four
center pieces placed.  (The source computes `size / 2` with JS number
division; for the even sizes the spec admits this equals integer division,
which is what we write.) -/
def createInitialBoard (size : Nat) : Board :=
  let board : Board := List.replicate size (List.replicate size (none : Cell))
  let center : Int := (size : Int) / 2
  let b1 := setCell board (center - 1) (center - 1) (some Player.white)
  let b2 := setCell b1 (center - 1) center (some Player.black)
  let b3 := setCell b2 center (center - 1) (some Player.black)
  setCell b3 center center (some Player.white)

/-- The inner `while` loop of `isValidMove` for one direction `(dr, dc)`,
with current position `(r, c)` and the `hasOpponent` flag. -/
def checkDirection (board : Board) (player : Player) (N : Nat) (dr dc : Int) :
    Nat → Int → Int → Bool → Bool
  | 0, _, _, _ => false
  | fuel + 1, r, c, hasOpponent =>
    if inBounds N r c then
      if getCell board r c = some (opponentOf player) then
        checkDirection board player N dr dc fuel (r + dr) (c + dc) true
      else if getCell board r c = some player ∧ hasOpponent = true then
        true
      else
        false
    else
      false

/-- Embedding of `isValidMove(board, row, col, player, boardSize)`.

`none` models a thrown `TypeError`: when `row` is out of range `board[row]`
is `undefined` and the source's very first access `board[row][col]` throws.
When `row` is in range but `col` is not, `board[row][col]` is `undefined`,
which is `!== null`, so the source returns `false`. -/
def isValidMove (board : Board) (row col : Int) (player : Player) (boardSize : Nat) :
    Option Bool :=
  match jsIndex board row with
  | none => none
  | some rowArr =>
    match jsIndex rowArr col with
    | none => some false
    | some cell =>
      if cell ≠ none then some false
      else
        some (directions.any fun d =>
          checkDirection board player boardSize d.1 d.2 (boardSize + 1)
            (row + d.1) (col + d.2) false)

/-- The inner `while` loop of `makeMove` for one direction: returns the
`toFlip` list that actually gets flipped (`[]` when the run is not closed by
a `player` cell, mirroring the `break` without flipping). -/
def collectRun (board : Board) (player : Player) (N : Nat) (dr dc : Int) :
    Nat → Int → Int → List (Int × Int) → List (Int × Int)
  | 0, _, _, _ => []
  | fuel + 1, r, c, toFlip =>
    if inBounds N r c then
      if getCell board r c = some (opponentOf player) then
        collectRun board player N dr dc fuel (r + dr) (c + dc) (toFlip ++ [(r, c)])
      else if getCell board r c = some player ∧ toFlip ≠ [] then
        toFlip
      else
        []
    else
      []

/-- One direction of the flipping `for` loop of `makeMove`, acting on the
current `newBoard`. -/
def flipDir (b : Board) (row col : Int) (player : Player) (N : Nat) (d : Int × Int) :
    Board :=
  let toFlip := collectRun b player N d.1 d.2 (N + 1) (row + d.1) (col + d.2) []
  toFlip.foldl (fun acc rc => setCell acc rc.1 rc.2 (some player)) b

/-- The mutation phase of `makeMove` after the legality re-check: copy the
board (value semantics: the copy is the value itself), place the piece at
`(row, col)`, then run the flipping loop over the 8 directions. -/
def mutatePhase (b : Board) (row col : Int) (player : Player) (N : Nat) : Board :=
  directions.foldl (fun acc d => flipDir acc row col player N d)
    (setCell b row col (some player))

/-- Embedding of `makeMove(board, row, col, player, boardSize)`; `none` models the
`TypeError` propagated out of the internal `isValidMove` call. -/
def makeMove (board : Board) (row col : Int) (player : Player) (boardSize : Nat) :
    Option Board :=
  match isValidMove board row col player boardSize with
  | none => none
  | some false => some board
  | some true => some (mutatePhase board row col player boardSize)

/-- Embedding of `getValidMoves(board, player, boardSize)`: row-major double loop pushing
the cells on which `isValidMove` returns `true`.  The `Option` layer
propagates a `TypeError` thrown by an internal `isValidMove` call (possible
only on a board with fewer than `boardSize` rows). -/
def getValidMoves (board : Board) (player : Player) (boardSize : Nat) :
    Option (List (Nat × Nat)) :=
  (List.range boardSize).foldlM (fun moves row =>
    (List.range boardSize).foldlM (fun moves2 col => do
      let v ← isValidMove board (Int.ofNat row) (Int.ofNat col) player boardSize
      pure (if v then moves2 ++ [(row, col)] else moves2)) moves)
    ([] : List (Nat × Nat))

/-- Embedding of `countPieces(board, boardSize)` as the pair `(black, white)`.  This never
throws: `board[row][col] === 'black'` is simply `false` when the access gives
`undefined`, exactly like `getCell` returning `none`. -/
def countPieces (board : Board) (boardSize : Nat) : Nat × Nat :=
  (List.range boardSize).foldl (fun counts row =>
    (List.range boardSize).foldl (fun counts2 col =>
      if getCell board (Int.ofNat row) (Int.ofNat col) = some Player.black then
        (counts2.1 + 1, counts2.2)
      else if getCell board (Int.ofNat row) (Int.ofNat col) = some Player.white then
        (counts2.1, counts2.2 + 1)
      else counts2) counts) (0, 0)

/-- The `winner` state values `'black' | 'white' | 'tie'`. -/
inductive Winner : Type where
  | black : Winner
  | white : Winner
  | tie : Winner
deriving DecidableEq, Repr

/-- The mutable state of `GameScreen` relevant to the turn logic. -/
structure GameSt where
  board : Board
  currentPlayer : Player
  gameOver : Bool
  winner : Option Winner
deriving Repr

/-- Embedding of `handleCellClick(row, col)` as a state transformer on `GameSt`.  Here `none`
models a thrown `TypeError` from the engine calls; an early `return` leaves
the state unchanged. -/
def handleCellClick (s : GameSt) (row col : Int) (N : Nat) : Option GameSt :=
  if s.gameOver then some s
  else
    match isValidMove s.board row col s.currentPlayer N with
    | none => none
    | some false => some s
    | some true => do
      let newBoard ← makeMove s.board row col s.currentPlayer N
      let nextPlayer := opponentOf s.currentPlayer
      let nextPlayerMoves ← getValidMoves newBoard nextPlayer N
      let currentPlayerMoves ← getValidMoves newBoard s.currentPlayer N
      if nextPlayerMoves.length > 0 then
        pure { s with board := newBoard, currentPlayer := nextPlayer }
      else if currentPlayerMoves.length > 0 then
        pure { s with board := newBoard }
      else
        let counts := countPieces newBoard N
        pure { s with board := newBoard, gameOver := true,
                      winner := some (if counts.1 > counts.2 then Winner.black
                                      else if counts.2 > counts.1 then Winner.white
                                      else Winner.tie) }

/-! ### Specification-side definitions

These follow the wording of the spec (§4.1) and are compared with the
source-derived functions above. -/

/-- From the spec: direction `d` scanned outward from `(row, col)` contains
one or more consecutive opponent cells (steps `1..k`) immediately followed by
a cell belonging to `player` (step `k+1`), all encountered in bounds. -/
def CaptureRun (board : Board) (row col : Int) (player : Player) (N : Nat)
    (d : Int × Int) (k : Nat) : Prop :=
  0 < k ∧
  (∀ i : Nat, 1 ≤ i → i ≤ k →
    inBounds N (row + (i : Int) * d.1) (col + (i : Int) * d.2) = true ∧
    getCell board (row + (i : Int) * d.1) (col + (i : Int) * d.2)
      = some (opponentOf player)) ∧
  inBounds N (row + ((k : Int) + 1) * d.1) (col + ((k : Int) + 1) * d.2) = true ∧
  getCell board (row + ((k : Int) + 1) * d.1) (col + ((k : Int) + 1) * d.2)
    = some player

/-- From the spec: the capture pattern holds in direction `d`. -/
def CapturesInDir (board : Board) (row col : Int) (player : Player) (N : Nat)
    (d : Int × Int) : Prop :=
  ∃ k : Nat, CaptureRun board row col player N d k

/-- From the spec: cell `(r, c)` is flipped by the move at `(row, col)`
through one of the directions in `ds`. -/
def FlipsTo (board : Board) (row col : Int) (player : Player) (N : Nat)
    (ds : List (Int × Int)) (r c : Int) : Prop :=
  ∃ d ∈ ds, ∃ i k : Nat, CaptureRun board row col player N d k ∧
    1 ≤ i ∧ i ≤ k ∧ r = row + (i : Int) * d.1 ∧ c = col + (i : Int) * d.2

/-- The cells at steps `1..k` along direction `d` from `(row, col)` (the
run of opponent pieces a capture in direction `d` flips). -/
def runCells (row col : Int) (d : Int × Int) (k : Nat) : List (Int × Int) :=
  (List.range k).map (fun i =>
    (row + ((i + 1 : Nat) : Int) * d.1, col + ((i + 1 : Nat) : Int) * d.2))

/-- Invariant of the flipping loop of `makeMove`: after the directions in
`processed` have been handled, the working board `acc` holds `player` at the
move cell and on every run flipped so far, and agrees with the original
board everywhere else. -/
def FlipState (board : Board) (row col : Int) (player : Player) (N : Nat)
    (processed : List (Int × Int)) (acc : Board) : Prop :=
  IsSquare acc N ∧
  getCell acc row col = some player ∧
  (∀ r c : Int, FlipsTo board row col player N processed r c →
    getCell acc r c = some player) ∧
  (∀ r c : Int, ¬((r, c) = (row, col)) →
    ¬FlipsTo board row col player N processed r c →
    getCell acc r c = getCell board r c)

/-- Whether `player` has at least one legal move somewhere on the board. -/
def HasMove (board : Board) (player : Player) (N : Nat) : Prop :=
  ∃ r c : Nat, r < N ∧ c < N ∧
    isValidMove board (r : Int) (c : Int) player N = some true

/-- All `(row, col)` positions of an `N × N` board in row-major order. -/
def allPositions (N : Nat) : List (Nat × Nat) :=
  (List.range N).flatMap (fun r => (List.range N).map (fun c => (r, c)))

/-- Number of empty cells (used to state the counting invariant of the spec). -/
def emptyCount (board : Board) (N : Nat) : Nat :=
  (allPositions N).countP (fun p => getCell board (p.1 : Int) (p.2 : Int) = none)

/-- Number of occupied cells. -/
def occupiedCount (board : Board) (N : Nat) : Nat :=
  (allPositions N).countP (fun p => getCell board (p.1 : Int) (p.2 : Int) ≠ none)

/-! ### Heap model for the no-mutation / fresh-allocation contract

In JavaScript a `Board` is an array of references to row arrays.  To state
that `makeMove` never mutates its argument and that a legal move returns a
freshly allocated board, we model the reference layer explicitly: a heap is
a store of row arrays addressed by numeric references, a board value is a
list of row references, and allocation appends to the store.

`makeMove` reads its argument through the references, and its mutation part
(`const newBoard = board.map(row => [...row])`, `newBoard[row][col] = player`
and the flip writes, which name only `newBoard`) reads and writes only the
freshly allocated copies of the rows; the net content of those fresh rows is
exactly the value-level `mutatePhase`. -/

/-- A heap of row arrays addressed by `Nat` references. -/
structure Heap where
  rows : List (List Cell)
deriving DecidableEq

/-- Dereference one row. -/
def readRow (h : Heap) (ref : Nat) : List Cell := h.rows.getD ref []

/-- Dereference a whole board value (a list of row references). -/
def readBoard (h : Heap) (refs : List Nat) : Board := refs.map (readRow h)

/-- Every reference of the board points into the heap. -/
def WFRefs (h : Heap) (refs : List Nat) : Prop :=
  ∀ ref ∈ refs, ref < h.rows.length

instance (h : Heap) (refs : List Nat) : Decidable (WFRefs h refs) := by
  unfold WFRefs; infer_instance

/-- Reference-level `makeMove`: an illegal move returns the argument
references with the heap untouched; a legal move allocates fresh rows holding
the mutated copy and leaves every existing heap cell untouched. -/
def makeMoveHeap (h : Heap) (refs : List Nat) (row col : Int) (player : Player)
    (N : Nat) : Option (Heap × List Nat) :=
  match isValidMove (readBoard h refs) row col player N with
  | none => none
  | some false => some (h, refs)
  | some true =>
    let fresh := List.range' h.rows.length refs.length
    let newRows := mutatePhase (readBoard h refs) row col player N
    some (⟨h.rows ++ newRows⟩, fresh)

/-! ### Basic lemmas on players, bounds and board access -/

theorem opponentOf_ne (p : Player) : opponentOf p ≠ p := by
  cases p <;> simp [opponentOf]

theorem some_opponentOf_ne (p : Player) : some (opponentOf p) ≠ some p := by
  simp [opponentOf_ne]

theorem inBounds_iff {N : Nat} {r c : Int} :
    inBounds N r c = true ↔ 0 ≤ r ∧ r < (N : Int) ∧ 0 ≤ c ∧ c < (N : Int) := by
  simp [inBounds]

theorem jsIndex_eq_getElem {l : List α} {i : Int} (h0 : 0 ≤ i)
    (h : i.toNat < l.length) : jsIndex l i = some (l.get ⟨i.toNat, h⟩) := by
  simp [jsIndex, h0, List.getElem?_eq_getElem h]

theorem jsIndex_eq_none {l : List α} {i : Int}
    (h : ¬(0 ≤ i ∧ i < (l.length : Int))) : jsIndex l i = none := by
  unfold jsIndex
  rcases le_or_lt 0 i with h0 | h0
  · have : (l.length : Int) ≤ i := by omega
    have : l.length ≤ i.toNat := by omega
    simp [h0, List.getElem?_eq_none this]
  · simp [not_le.mpr h0]

/-- Unfolding `getCell` on a square board at an in-bounds position. -/
theorem getCell_of_inBounds {b : Board} {N : Nat} (hsq : IsSquare b N)
    {r c : Int} (h : inBounds N r c = true) :
    ∃ rw : List Cell, jsIndex b r = some rw ∧ rw.length = N ∧
      jsIndex rw c = some (getCell b r c) := by
  rw [inBounds_iff] at h
  obtain ⟨hr0, hrN, hc0, hcN⟩ := h
  have hrlt : r.toNat < b.length := by rw [hsq.1]; omega
  have hrow : jsIndex b r = some b[r.toNat] := by
    unfold jsIndex
    rw [if_pos hr0, List.getElem?_eq_getElem hrlt]
  have hrwlen : b[r.toNat].length = N := hsq.2 _ (List.getElem_mem hrlt)
  have hclt : c.toNat < b[r.toNat].length := by rw [hrwlen]; omega
  have hcol : jsIndex b[r.toNat] c = some b[r.toNat][c.toNat] := by
    unfold jsIndex
    rw [if_pos hc0, List.getElem?_eq_getElem hclt]
  have hval : getCell b r c = b[r.toNat][c.toNat] := by
    simp only [getCell, hrow, hcol, Option.getD_some]
  exact ⟨b[r.toNat], hrow, hrwlen, by rw [hcol, hval]⟩

theorem length_setCell (b : Board) (r c : Int) (v : Cell) :
    (setCell b r c v).length = b.length := by
  unfold setCell; split
  · exact List.length_set ..
  · rfl

theorem IsSquare_setCell {b : Board} {N : Nat} (hsq : IsSquare b N)
    (r c : Int) (v : Cell) : IsSquare (setCell b r c v) N := by
  unfold setCell; split
  · rcases lt_or_le r.toNat b.length with hlt | hle
    · refine ⟨by simpa [List.length_set] using hsq.1, ?_⟩
      intro rw hrw
      rcases List.mem_or_eq_of_mem_set hrw with hmem | heq
      · exact hsq.2 _ hmem
      · subst heq
        rw [List.length_set]
        simp only [List.getD_eq_getElem?_getD, List.getElem?_eq_getElem hlt,
          Option.getD_some]
        exact hsq.2 _ (List.getElem_mem hlt)
    · rw [List.set_eq_of_length_le hle]; exact hsq
  · exact hsq

/-- Reading back the cell just written. -/
theorem getCell_setCell_same {b : Board} {N : Nat} (hsq : IsSquare b N)
    {r c : Int} (h : inBounds N r c = true) (v : Cell) :
    getCell (setCell b r c v) r c = v := by
  rw [inBounds_iff] at h
  obtain ⟨hr0, hrN, hc0, hcN⟩ := h
  have hrlt : r.toNat < b.length := by rw [hsq.1]; omega
  have hrowlen : (b.getD r.toNat []).length = N := by
    simp only [List.getD_eq_getElem?_getD, List.getElem?_eq_getElem hrlt,
      Option.getD_some]
    exact hsq.2 _ (List.getElem_mem hrlt)
  have h1 : jsIndex (b.set r.toNat ((b.getD r.toNat []).set c.toNat v)) r
      = some ((b.getD r.toNat []).set c.toNat v) := by
    unfold jsIndex
    rw [if_pos hr0, List.getElem?_set_self hrlt]
  have h2 : jsIndex ((b.getD r.toNat []).set c.toNat v) c = some v := by
    unfold jsIndex
    rw [if_pos hc0, List.getElem?_set_self (by rw [hrowlen]; omega)]
  unfold setCell
  rw [if_pos ⟨hr0, hc0⟩]
  simp only [getCell, h1, h2, Option.getD_some]

/-- Writing one cell leaves every other cell unchanged. -/
theorem getCell_setCell_other {b : Board} {r c : Int} (hr0 : 0 ≤ r) (hc0 : 0 ≤ c)
    {r2 c2 : Int} (hne : ¬(r2 = r ∧ c2 = c)) (v : Cell) :
    getCell (setCell b r c v) r2 c2 = getCell b r2 c2 := by
  unfold setCell
  rw [if_pos ⟨hr0, hc0⟩]
  by_cases hr20 : 0 ≤ r2
  · by_cases hrr : r2.toNat = r.toNat
    · have hrr2 : r2 = r := by omega
      subst hrr2
      have hcc : c2 ≠ c := fun h => hne ⟨rfl, h⟩
      rcases lt_or_le r2.toNat b.length with hlt | hle
      · have h1 : jsIndex (b.set r2.toNat ((b.getD r2.toNat []).set c.toNat v)) r2
            = some ((b.getD r2.toNat []).set c.toNat v) := by
          unfold jsIndex
          rw [if_pos hr20, List.getElem?_set_self hlt]
        have h2 : jsIndex b r2 = some (b.getD r2.toNat []) := by
          unfold jsIndex
          rw [if_pos hr20, List.getElem?_eq_getElem hlt]
          simp only [List.getD_eq_getElem?_getD, List.getElem?_eq_getElem hlt,
            Option.getD_some]
        simp only [getCell, h1, h2]
        by_cases hc20 : 0 ≤ c2
        · have hccn : c.toNat ≠ c2.toNat := by omega
          simp only [jsIndex, if_pos hc20, List.getElem?_set_ne hccn]
        · simp only [jsIndex, if_neg hc20]
      · rw [List.set_eq_of_length_le hle]
    · have h1 : jsIndex (b.set r.toNat ((b.getD r.toNat []).set c.toNat v)) r2
          = jsIndex b r2 := by
        unfold jsIndex
        rw [if_pos hr20, if_pos hr20, List.getElem?_set_ne (fun h => hrr h.symm)]
      simp only [getCell, h1]
  · have h1 : jsIndex (b.set r.toNat ((b.getD r.toNat []).set c.toNat v)) r2
        = (none : Option (List Cell)) := by
      unfold jsIndex; rw [if_neg hr20]
    have h2 : jsIndex b r2 = (none : Option (List Cell)) := by
      unfold jsIndex; rw [if_neg hr20]
    simp only [getCell, h1, h2]

/-! ### The directional scan loop -/

theorem rayStep (x d : Int) (i : Nat) :
    x + ((i + 1 : Nat) : Int) * d = (x + d) + (i : Int) * d := by
  push_cast; ring

/-- Invariant characterisation of the `while` loop of `isValidMove`: started
at `(r0, c0)` with flag `h`, it returns `true` iff some position `j` steps
further holds `player`'s piece, all the strictly earlier positions hold
opponent pieces, everything is scanned in bounds, and the flag or a nonempty
opponent prefix justifies the `hasOpponent` test. -/
theorem checkDirection_iff (board : Board) (player : Player) (N : Nat)
    (dr dc : Int) (fuel : Nat) (r0 c0 : Int) (h : Bool) :
    checkDirection board player N dr dc fuel r0 c0 h = true ↔
      ∃ j : Nat, j < fuel ∧
        (∀ i : Nat, i < j →
          inBounds N (r0 + (i : Int) * dr) (c0 + (i : Int) * dc) = true ∧
          getCell board (r0 + (i : Int) * dr) (c0 + (i : Int) * dc)
            = some (opponentOf player)) ∧
        inBounds N (r0 + (j : Int) * dr) (c0 + (j : Int) * dc) = true ∧
        getCell board (r0 + (j : Int) * dr) (c0 + (j : Int) * dc) = some player ∧
        (h = true ∨ 0 < j) := by
  induction fuel generalizing r0 c0 h with
  | zero => simp [checkDirection]
  | succ fuel ih =>
    by_cases hb : inBounds N r0 c0 = true
    · by_cases hopp : getCell board r0 c0 = some (opponentOf player)
      · have hnp : ¬ getCell board r0 c0 = some player := by
          rw [hopp]; simp [opponentOf_ne]
        show (if inBounds N r0 c0 then _ else false) = true ↔ _
        rw [if_pos hb, if_pos hopp, ih]
        constructor
        · rintro ⟨j, hj, hrun, hendB, hendC, -⟩
          refine ⟨j + 1, by omega, ?_, ?_, ?_, Or.inr (by omega)⟩
          · intro i hi
            cases i with
            | zero =>
              simpa only [Nat.cast_zero, zero_mul, add_zero] using ⟨hb, hopp⟩
            | succ i =>
              rw [rayStep r0 dr i, rayStep c0 dc i]
              exact hrun i (by omega)
          · rw [rayStep r0 dr j, rayStep c0 dc j]; exact hendB
          · rw [rayStep r0 dr j, rayStep c0 dc j]; exact hendC
        · rintro ⟨j, hj, hrun, hendB, hendC, -⟩
          cases j with
          | zero =>
            exfalso
            apply hnp
            simpa only [Nat.cast_zero, zero_mul, add_zero] using hendC
          | succ j =>
            refine ⟨j, by omega, ?_, ?_, ?_, Or.inl rfl⟩
            · intro i hi
              have := hrun (i + 1) (by omega)
              rwa [rayStep r0 dr i, rayStep c0 dc i] at this
            · have := hendB; rwa [rayStep r0 dr j, rayStep c0 dc j] at this
            · have := hendC; rwa [rayStep r0 dr j, rayStep c0 dc j] at this
      · by_cases hpl : getCell board r0 c0 = some player ∧ h = true
        · show (if inBounds N r0 c0 then _ else false) = true ↔ _
          rw [if_pos hb, if_neg hopp, if_pos hpl]
          refine iff_of_true rfl ⟨0, by omega, by omega, ?_, ?_, Or.inl hpl.2⟩
          · simpa only [Nat.cast_zero, zero_mul, add_zero] using hb
          · simpa only [Nat.cast_zero, zero_mul, add_zero] using hpl.1
        · show (if inBounds N r0 c0 then _ else false) = true ↔ _
          rw [if_pos hb, if_neg hopp, if_neg hpl]
          refine iff_of_false (by simp) ?_
          rintro ⟨j, hj, hrun, hendB, hendC, hflag⟩
          cases j with
          | zero =>
            rcases hflag with hflag | hflag
            · exact hpl ⟨by simpa only [Nat.cast_zero, zero_mul, add_zero]
                using hendC, hflag⟩
            · omega
          | succ j =>
            have := (hrun 0 (by omega)).2
            simp only [Nat.cast_zero, zero_mul, add_zero] at this
            exact hopp this
    · show (if inBounds N r0 c0 then _ else false) = true ↔ _
      rw [if_neg hb]
      refine iff_of_false (by simp) ?_
      rintro ⟨j, hj, hrun, hendB, hendC, hflag⟩
      cases j with
      | zero =>
        apply hb
        simpa only [Nat.cast_zero, zero_mul, add_zero] using hendB
      | succ j =>
        apply hb
        simpa only [Nat.cast_zero, zero_mul, add_zero] using (hrun 0 (by omega)).1

/-- Walking `m` steps from an in-bounds cell along one of the 8 directions
leaves the board after at most `N` steps, so an in-bounds position at step
`m` forces `m ≤ N`. -/
theorem ray_bound {N : Nat} {row col : Int} {d : Int × Int} (hd : d ∈ directions)
    (hin : inBounds N row col = true) {m : Nat}
    (hm : inBounds N (row + (m : Int) * d.1) (col + (m : Int) * d.2) = true) :
    m ≤ N := by
  rw [inBounds_iff] at hin hm
  fin_cases hd <;> simp only at hm <;> omega

/-- The scan of one direction inside `isValidMove` decides exactly the
spec's capture pattern for that direction. -/
theorem checkDirection_eq_capture {board : Board} {player : Player} {N : Nat}
    {row col : Int} {d : Int × Int} (hd : d ∈ directions)
    (hin : inBounds N row col = true) :
    (checkDirection board player N d.1 d.2 (N + 1) (row + d.1) (col + d.2) false
      = true) ↔ CapturesInDir board row col player N d := by
  rw [checkDirection_iff]
  unfold CapturesInDir CaptureRun
  constructor
  · rintro ⟨j, hj, hrun, hendB, hendC, hflag⟩
    have hjpos : 0 < j := by
      rcases hflag with hflag | hflag
      · exact absurd hflag (by simp)
      · exact hflag
    refine ⟨j, hjpos, ?_, ?_, ?_⟩
    · intro i h1 hik
      cases i with
      | zero => omega
      | succ i =>
        rw [rayStep row d.1 i, rayStep col d.2 i]
        exact hrun i (by omega)
    · rw [show ((j : Int) + 1) = ((j + 1 : Nat) : Int) by push_cast; ring,
        rayStep row d.1 j, rayStep col d.2 j]
      exact hendB
    · rw [show ((j : Int) + 1) = ((j + 1 : Nat) : Int) by push_cast; ring,
        rayStep row d.1 j, rayStep col d.2 j]
      exact hendC
  · rintro ⟨k, hk, hrun, hendB, hendC⟩
    rw [show ((k : Int) + 1) = ((k + 1 : Nat) : Int) by push_cast; ring] at hendB hendC
    have hbound : k + 1 ≤ N := ray_bound hd hin hendB
    rw [rayStep row d.1 k, rayStep col d.2 k] at hendB hendC
    refine ⟨k, by omega, ?_, hendB, hendC, Or.inr hk⟩
    intro i hik
    have := hrun (i + 1) (by omega) (by omega)
    rwa [rayStep row d.1 i, rayStep col d.2 i] at this

/-- On a square board, `isValidMove` at an in-bounds cell never throws and
reduces to the empty-cell test plus the 8-direction scan. -/
theorem isValidMove_eq_any {board : Board} {N : Nat} {row col : Int}
    (player : Player) (hsq : IsSquare board N) (hin : inBounds N row col = true) :
    isValidMove board row col player N =
      if getCell board row col ≠ none then some false
      else some (directions.any fun d =>
        checkDirection board player N d.1 d.2 (N + 1) (row + d.1) (col + d.2)
          false) := by
  obtain ⟨rowArr, hrow, -, hcell⟩ := getCell_of_inBounds hsq hin
  simp only [isValidMove, hrow, hcell]

/-! ### Claim theorems -/

/-- C1: for every `N×N` board, player and in-bounds coordinate,
`isValidMove` returns `false` when the target cell is non-empty, and
otherwise returns `true` iff at least one of the 8 directions, scanned
outward from `(row, col)`, contains one or more consecutive opponent cells
immediately followed by a cell belonging to the player. -/
theorem C1_isValidMove_correct {board : Board} {N : Nat} {row col : Int}
    {player : Player} (hsq : IsSquare board N) (hin : inBounds N row col = true) :
    (getCell board row col ≠ none →
      isValidMove board row col player N = some false) ∧
    (isValidMove board row col player N = some true ↔
      getCell board row col = none ∧
      ∃ d ∈ directions, CapturesInDir board row col player N d) := by
  rw [isValidMove_eq_any player hsq hin]
  constructor
  · intro hne; rw [if_pos hne]
  · by_cases hcell : getCell board row col = none
    · rw [if_neg (by simpa using hcell), Option.some_inj, List.any_eq_true]
      constructor
      · rintro ⟨d, hd, hchk⟩
        exact ⟨hcell, d, hd, (checkDirection_eq_capture hd hin).1 hchk⟩
      · rintro ⟨-, d, hd, hcap⟩
        exact ⟨d, hd, (checkDirection_eq_capture hd hin).2 hcap⟩
    · rw [if_pos hcell]
      exact iff_of_false (by simp) (fun hc => hcell hc.1)

/-- Witness for C1 at the standard opening: the 8×8 initial board,
black to move at `(2, 3)`. -/
theorem C1_witness :
    IsSquare (createInitialBoard 8) 8 ∧ inBounds 8 2 3 = true ∧
    ((getCell (createInitialBoard 8) 2 3 ≠ none →
      isValidMove (createInitialBoard 8) 2 3 Player.black 8 = some false) ∧
     (isValidMove (createInitialBoard 8) 2 3 Player.black 8 = some true ↔
      getCell (createInitialBoard 8) 2 3 = none ∧
      ∃ d ∈ directions, CapturesInDir (createInitialBoard 8) 2 3 Player.black 8 d)) :=
  ⟨by decide, by decide, C1_isValidMove_correct (by decide) (by decide)⟩

/-- C3: applying a move that `isValidMove` rejects returns the input board
unchanged, with no error. -/
theorem C3_makeMove_illegal_noop {board : Board} {row col : Int}
    {player : Player} {N : Nat}
    (h : isValidMove board row col player N = some false) :
    makeMove board row col player N = some board := by
  simp [makeMove, h]

/-- Witness for C3: black may not move at the occupied corner-distant cell
`(0, 0)` of the initial board, and `makeMove` leaves the board alone. -/
theorem C3_witness :
    isValidMove (createInitialBoard 8) 0 0 Player.black 8 = some false ∧
    makeMove (createInitialBoard 8) 0 0 Player.black 8
      = some (createInitialBoard 8) :=
  ⟨by decide, C3_makeMove_illegal_noop (by decide)⟩

/-- C7 counterexample: with an out-of-range `row`, `board[row]` is
`undefined` and `board[row][col]` throws a `TypeError` (modelled by `none`),
so `isValidMove` does not return `false` and `makeMove` does not no-op; the
engine does raise an exception on this invalid input. -/
theorem C7_counterexample :
    isValidMove (createInitialBoard 8) (-1) 0 Player.black 8 = none ∧
    makeMove (createInitialBoard 8) (-1) 0 Player.black 8 = none := by
  constructor <;> rfl

/-- C7 amended: on an `N×N` board the engine raises no exception whenever
`row` is in range — any out-of-range `col` degrades to `isValidMove = false`
and `makeMove` a no-op — but an out-of-range `row` makes both operations
throw a `TypeError` (modelled by `none`) instead of degrading. -/
theorem C7_amended_defined_behavior {board : Board} {N : Nat} {player : Player}
    (hsq : IsSquare board N) (row col : Int) :
    (0 ≤ row ∧ row < (N : Int) →
      (∃ b, isValidMove board row col player N = some b) ∧
      (¬(0 ≤ col ∧ col < (N : Int)) →
        isValidMove board row col player N = some false ∧
        makeMove board row col player N = some board)) ∧
    (¬(0 ≤ row ∧ row < (N : Int)) →
      isValidMove board row col player N = none ∧
      makeMove board row col player N = none) := by
  constructor
  · rintro ⟨hr0, hrN⟩
    have hrlt : row.toNat < board.length := by rw [hsq.1]; omega
    have hrow : jsIndex board row = some board[row.toNat] := by
      unfold jsIndex
      rw [if_pos hr0, List.getElem?_eq_getElem hrlt]
    have hrwlen : board[row.toNat].length = N := hsq.2 _ (List.getElem_mem hrlt)
    constructor
    · cases hcol : jsIndex board[row.toNat] col with
      | none =>
        exact ⟨false, by simp only [isValidMove, hrow, hcol]⟩
      | some cell =>
        by_cases hc : cell ≠ none
        · exact ⟨false, by simp only [isValidMove, hrow, hcol, if_pos hc]⟩
        · refine ⟨directions.any fun d =>
            checkDirection board player N d.1 d.2 (N + 1) (row + d.1)
              (col + d.2) false, ?_⟩
          simp only [isValidMove, hrow, hcol, if_neg hc]
    · intro hcout
      have hcol : jsIndex board[row.toNat] col = none := by
        apply jsIndex_eq_none
        rw [hrwlen]
        exact hcout
      have hv : isValidMove board row col player N = some false := by
        simp only [isValidMove, hrow, hcol]
      exact ⟨hv, by simp [makeMove, hv]⟩
  · intro hrout
    have hrow : jsIndex board row = none := by
      apply jsIndex_eq_none
      rw [hsq.1]
      exact hrout
    have hv : isValidMove board row col player N = none := by
      simp only [isValidMove, hrow]
    exact ⟨hv, by simp [makeMove, hv]⟩

/-- Witness for the amended C7: in-range row `0`, out-of-range column `8`. -/
theorem C7_amended_witness :
    (0 ≤ (0 : Int) ∧ (0 : Int) < (8 : Int) →
      (∃ b, isValidMove (createInitialBoard 8) 0 8 Player.black 8 = some b) ∧
      (¬(0 ≤ (8 : Int) ∧ (8 : Int) < (8 : Int)) →
        isValidMove (createInitialBoard 8) 0 8 Player.black 8 = some false ∧
        makeMove (createInitialBoard 8) 0 8 Player.black 8
          = some (createInitialBoard 8))) ∧
    (¬(0 ≤ (0 : Int) ∧ (0 : Int) < (8 : Int)) →
      isValidMove (createInitialBoard 8) 0 8 Player.black 8 = none ∧
      makeMove (createInitialBoard 8) 0 8 Player.black 8 = none) :=
  C7_amended_defined_behavior (by decide) 0 8

/-! ### The initial board -/

theorem IsSquare_blank (N : Nat) :
    IsSquare (List.replicate N (List.replicate N (none : Cell))) N := by
  constructor
  · simp
  · intro rw h
    rw [List.eq_of_mem_replicate h]
    simp

theorem getCell_blank (N : Nat) (r c : Int) :
    getCell (List.replicate N (List.replicate N (none : Cell))) r c = none := by
  cases h : jsIndex (List.replicate N (List.replicate N (none : Cell))) r with
  | none => simp only [getCell, h]
  | some rowArr =>
    have hrw : rowArr = List.replicate N (none : Cell) := by
      unfold jsIndex at h
      split_ifs at h with h0
      · exact List.eq_of_mem_replicate (List.getElem?_mem h)
    subst hrw
    simp only [getCell, h]
    unfold jsIndex
    split_ifs with hc
    · rw [List.getElem?_replicate]
      split_ifs with hcN <;> rfl
    · rfl

theorem IsSquare_createInitialBoard (N : Nat) :
    IsSquare (createInitialBoard N) N := by
  unfold createInitialBoard
  exact IsSquare_setCell (IsSquare_setCell (IsSquare_setCell
    (IsSquare_setCell (IsSquare_blank N) _ _ _) _ _ _) _ _ _) _ _ _

/-- C8: for every even `N ≥ 4`, the initialized board has the four center
cells set to the fixed pattern (`white` = light at top-left and bottom-right
of the center block, `black` = dark at the other two) and every other cell
empty; in particular the concrete `N = 8` scenario of the spec holds. -/
theorem C8_createInitialBoard (N : Nat) (h4 : 4 ≤ N) (heven : N % 2 = 0) :
    getCell (createInitialBoard N) ((N : Int) / 2 - 1) ((N : Int) / 2 - 1)
      = some Player.white ∧
    getCell (createInitialBoard N) ((N : Int) / 2 - 1) ((N : Int) / 2)
      = some Player.black ∧
    getCell (createInitialBoard N) ((N : Int) / 2) ((N : Int) / 2 - 1)
      = some Player.black ∧
    getCell (createInitialBoard N) ((N : Int) / 2) ((N : Int) / 2)
      = some Player.white ∧
    (∀ r c : Int, inBounds N r c = true →
      ¬((r = (N : Int) / 2 - 1 ∨ r = (N : Int) / 2) ∧
        (c = (N : Int) / 2 - 1 ∨ c = (N : Int) / 2)) →
      getCell (createInitialBoard N) r c = none) ∧
    getCell (createInitialBoard 8) 3 3 = some Player.white ∧
    getCell (createInitialBoard 8) 3 4 = some Player.black ∧
    getCell (createInitialBoard 8) 4 3 = some Player.black ∧
    getCell (createInitialBoard 8) 4 4 = some Player.white ∧
    emptyCount (createInitialBoard 8) 8 = 60 ∧
    countPieces (createInitialBoard 8) 8 = (2, 2) := by
  have hin11 : inBounds N ((N : Int) / 2 - 1) ((N : Int) / 2 - 1) = true := by
    rw [inBounds_iff]; omega
  have hin12 : inBounds N ((N : Int) / 2 - 1) ((N : Int) / 2) = true := by
    rw [inBounds_iff]; omega
  have hin21 : inBounds N ((N : Int) / 2) ((N : Int) / 2 - 1) = true := by
    rw [inBounds_iff]; omega
  have hin22 : inBounds N ((N : Int) / 2) ((N : Int) / 2) = true := by
    rw [inBounds_iff]; omega
  have hne : (N : Int) / 2 - 1 ≠ (N : Int) / 2 := by omega
  have h10 : 0 ≤ (N : Int) / 2 - 1 := by omega
  have h20 : 0 ≤ (N : Int) / 2 := by omega
  have hsq0 : IsSquare (List.replicate N (List.replicate N (none : Cell))) N :=
    IsSquare_blank N
  have hsq1 : IsSquare (setCell (List.replicate N (List.replicate N (none : Cell)))
      ((N : Int) / 2 - 1) ((N : Int) / 2 - 1) (some Player.white)) N :=
    IsSquare_setCell hsq0 _ _ _
  have hsq2 : IsSquare (setCell (setCell
      (List.replicate N (List.replicate N (none : Cell)))
      ((N : Int) / 2 - 1) ((N : Int) / 2 - 1) (some Player.white))
      ((N : Int) / 2 - 1) ((N : Int) / 2) (some Player.black)) N :=
    IsSquare_setCell hsq1 _ _ _
  have hsq3 : IsSquare (setCell (setCell (setCell
      (List.replicate N (List.replicate N (none : Cell)))
      ((N : Int) / 2 - 1) ((N : Int) / 2 - 1) (some Player.white))
      ((N : Int) / 2 - 1) ((N : Int) / 2) (some Player.black))
      ((N : Int) / 2) ((N : Int) / 2 - 1) (some Player.black)) N :=
    IsSquare_setCell hsq2 _ _ _
  have hunf : createInitialBoard N =
      setCell (setCell (setCell (setCell
        (List.replicate N (List.replicate N (none : Cell)))
        ((N : Int) / 2 - 1) ((N : Int) / 2 - 1) (some Player.white))
        ((N : Int) / 2 - 1) ((N : Int) / 2) (some Player.black))
        ((N : Int) / 2) ((N : Int) / 2 - 1) (some Player.black))
        ((N : Int) / 2) ((N : Int) / 2) (some Player.white) := rfl
  refine ⟨?_, ?_, ?_, ?_, ?_, by decide, by decide, by decide, by decide,
    by decide, by decide⟩
  · rw [hunf,
      getCell_setCell_other h20 h20 (by rintro ⟨h, -⟩; exact hne h) _,
      getCell_setCell_other h20 h10 (by rintro ⟨h, -⟩; exact hne h) _,
      getCell_setCell_other h10 h20 (by rintro ⟨-, h⟩; exact hne h) _,
      getCell_setCell_same hsq0 hin11]
  · rw [hunf,
      getCell_setCell_other h20 h20 (by rintro ⟨h, -⟩; exact hne h) _,
      getCell_setCell_other h20 h10 (by rintro ⟨h, -⟩; exact hne h) _,
      getCell_setCell_same hsq1 hin12]
  · rw [hunf,
      getCell_setCell_other h20 h20 (by rintro ⟨-, h⟩; exact hne h) _,
      getCell_setCell_same hsq2 hin21]
  · rw [hunf, getCell_setCell_same hsq3 hin22]
  · intro r c hin hnc
    rw [hunf]
    by_cases hr1 : r = (N : Int) / 2 - 1
    · have hc1 : c ≠ (N : Int) / 2 - 1 := fun h => (hnc ⟨Or.inl hr1, Or.inl h⟩)
      have hc2v : c ≠ (N : Int) / 2 := fun h => (hnc ⟨Or.inl hr1, Or.inr h⟩)
      rw [getCell_setCell_other h20 h20 (by rintro ⟨-, h⟩; exact hc2v h) _,
        getCell_setCell_other h20 h10 (by rintro ⟨-, h⟩; exact hc1 h) _,
        getCell_setCell_other h10 h20 (by rintro ⟨-, h⟩; exact hc2v h) _,
        getCell_setCell_other h10 h10 (by rintro ⟨-, h⟩; exact hc1 h) _]
      exact getCell_blank N r c
    · by_cases hr2 : r = (N : Int) / 2
      · have hc1 : c ≠ (N : Int) / 2 - 1 := fun h => (hnc ⟨Or.inr hr2, Or.inl h⟩)
        have hc2v : c ≠ (N : Int) / 2 := fun h => (hnc ⟨Or.inr hr2, Or.inr h⟩)
        rw [getCell_setCell_other h20 h20 (by rintro ⟨-, h⟩; exact hc2v h) _,
          getCell_setCell_other h20 h10 (by rintro ⟨-, h⟩; exact hc1 h) _,
          getCell_setCell_other h10 h20 (by rintro ⟨h, -⟩; exact hr1 h) _,
          getCell_setCell_other h10 h10 (by rintro ⟨h, -⟩; exact hr1 h) _]
        exact getCell_blank N r c
      · rw [getCell_setCell_other h20 h20 (by rintro ⟨h, -⟩; exact hr2 h) _,
          getCell_setCell_other h20 h10 (by rintro ⟨h, -⟩; exact hr2 h) _,
          getCell_setCell_other h10 h20 (by rintro ⟨h, -⟩; exact hr1 h) _,
          getCell_setCell_other h10 h10 (by rintro ⟨h, -⟩; exact hr1 h) _]
        exact getCell_blank N r c

/-- Witness for C8 at `N = 8`. -/
theorem C8_witness :
    4 ≤ 8 ∧ 8 % 2 = 0 ∧
    (getCell (createInitialBoard 8) ((8 : Int) / 2 - 1) ((8 : Int) / 2 - 1)
      = some Player.white ∧
    getCell (createInitialBoard 8) ((8 : Int) / 2 - 1) ((8 : Int) / 2)
      = some Player.black ∧
    getCell (createInitialBoard 8) ((8 : Int) / 2) ((8 : Int) / 2 - 1)
      = some Player.black ∧
    getCell (createInitialBoard 8) ((8 : Int) / 2) ((8 : Int) / 2)
      = some Player.white ∧
    (∀ r c : Int, inBounds 8 r c = true →
      ¬((r = (8 : Int) / 2 - 1 ∨ r = (8 : Int) / 2) ∧
        (c = (8 : Int) / 2 - 1 ∨ c = (8 : Int) / 2)) →
      getCell (createInitialBoard 8) r c = none) ∧
    getCell (createInitialBoard 8) 3 3 = some Player.white ∧
    getCell (createInitialBoard 8) 3 4 = some Player.black ∧
    getCell (createInitialBoard 8) 4 3 = some Player.black ∧
    getCell (createInitialBoard 8) 4 4 = some Player.white ∧
    emptyCount (createInitialBoard 8) 8 = 60 ∧
    countPieces (createInitialBoard 8) 8 = (2, 2)) :=
  ⟨by decide, by decide, C8_createInitialBoard 8 (by decide) (by decide)⟩

/-! ### Counting -/

theorem foldl_nested {δ : Type} (L M : List Nat) (g : δ → (Nat × Nat) → δ)
    (init : δ) :
    L.foldl (fun acc r => M.foldl (fun acc2 c => g acc2 (r, c)) acc) init
      = (L.flatMap (fun r => M.map (fun c => (r, c)))).foldl g init := by
  induction L generalizing init with
  | nil => rfl
  | cons r L ih =>
    simp only [List.foldl_cons, List.flatMap_cons, List.foldl_append,
      List.foldl_map]
    exact ih _

theorem foldl_pair_count (l : List (Nat × Nat)) (f g : Nat × Nat → Prop)
    [DecidablePred f] [DecidablePred g] (hfg : ∀ x, ¬(f x ∧ g x)) (a b : Nat) :
    l.foldl (fun acc p => if f p then (acc.1 + 1, acc.2)
      else if g p then (acc.1, acc.2 + 1) else acc) (a, b)
      = (a + l.countP (fun p => decide (f p)),
         b + l.countP (fun p => decide (g p))) := by
  induction l generalizing a b with
  | nil => simp
  | cons x xs ih =>
    by_cases hf : f x
    · have hg : ¬ g x := fun hg => hfg x ⟨hf, hg⟩
      simp only [List.foldl_cons, if_pos hf, List.countP_cons, ih,
        Prod.ext_iff]
      simp [hf, hg]
      omega
    · by_cases hg : g x
      · simp only [List.foldl_cons, if_neg hf, if_pos hg, List.countP_cons,
          ih, Prod.ext_iff]
        simp [hf, hg]
        omega
      · simp only [List.foldl_cons, if_neg hf, if_neg hg, List.countP_cons,
          ih, Prod.ext_iff]
        simp [hf, hg]

theorem countP_partition3 (l : List α) (f g h : α → Bool)
    (hone : ∀ x ∈ l,
      (f x = true ∧ g x = false ∧ h x = false) ∨
      (f x = false ∧ g x = true ∧ h x = false) ∨
      (f x = false ∧ g x = false ∧ h x = true)) :
    l.countP f + l.countP g + l.countP h = l.length := by
  induction l with
  | nil => simp
  | cons x xs ih =>
    have hx := hone x (by simp)
    have hxs := ih (fun y hy => hone y (List.mem_cons_of_mem _ hy))
    simp only [List.countP_cons, List.length_cons]
    rcases hx with ⟨h1, h2, h3⟩ | ⟨h1, h2, h3⟩ | ⟨h1, h2, h3⟩ <;>
      simp [h1, h2, h3] <;> omega

theorem length_allPositions (N : Nat) : (allPositions N).length = N * N := by
  unfold allPositions
  rw [List.length_flatMap]
  simp only [Function.comp_def, List.length_map, List.length_range]
  rw [List.map_const', List.sum_replicate, List.length_range, smul_eq_mul]

/-- The function `countPieces` counts, over all `N²` positions, exactly the cells holding
each player. -/
theorem countPieces_eq_countP (board : Board) (N : Nat) :
    countPieces board N
      = ((allPositions N).countP (fun p =>
          decide (getCell board (p.1 : Int) (p.2 : Int) = some Player.black)),
         (allPositions N).countP (fun p =>
          decide (getCell board (p.1 : Int) (p.2 : Int) = some Player.white))) := by
  unfold countPieces
  rw [foldl_nested (List.range N) (List.range N) (fun acc p =>
      if getCell board (Int.ofNat p.1) (Int.ofNat p.2) = some Player.black then
        (acc.1 + 1, acc.2)
      else if getCell board (Int.ofNat p.1) (Int.ofNat p.2) = some Player.white then
        (acc.1, acc.2 + 1)
      else acc) (0, 0)]
  rw [show ((List.range N).flatMap fun r => List.map (fun c => (r, c)) (List.range N))
      = allPositions N from rfl]
  simp only [Int.ofNat_eq_natCast]
  rw [foldl_pair_count (allPositions N)
    (fun p => getCell board (p.1 : Int) (p.2 : Int) = some Player.black)
    (fun p => getCell board (p.1 : Int) (p.2 : Int) = some Player.white)
    (by rintro x ⟨h1, h2⟩; rw [h1] at h2; cases h2) 0 0]
  simp [allPositions]

/-- C6: for every `N×N` board, `countPieces` counts exactly the cells
occupied by each player (empty cells counted by neither), and the dark
count plus the light count plus the empty-cell count equals `N²`; in
particular dark + light ≤ N². -/
theorem C6_countPieces_correct (board : Board) (N : Nat) :
    countPieces board N
      = ((allPositions N).countP (fun p =>
          decide (getCell board (p.1 : Int) (p.2 : Int) = some Player.black)),
         (allPositions N).countP (fun p =>
          decide (getCell board (p.1 : Int) (p.2 : Int) = some Player.white))) ∧
    (countPieces board N).1 + (countPieces board N).2 + emptyCount board N
      = N * N ∧
    (countPieces board N).1 + (countPieces board N).2 ≤ N * N := by
  have hcp := countPieces_eq_countP board N
  have hsum : (countPieces board N).1 + (countPieces board N).2
      + emptyCount board N = N * N := by
    rw [hcp]
    unfold emptyCount
    rw [← length_allPositions N]
    apply countP_partition3
    intro p hp
    rcases hcell : getCell board (p.1 : Int) (p.2 : Int) with - | pl
    · right; right; simp [hcell]
    · cases pl
      · left; simp [hcell]
      · right; left; simp [hcell]
  exact ⟨hcp, hsum, by omega⟩

/-! ### Enumeration of legal moves -/

/-- On a square board, `isValidMove` with an in-range `row` always returns a
defined boolean (no exception). -/
theorem isValidMove_total {board : Board} {N : Nat} (player : Player)
    (hsq : IsSquare board N) {row : Int} (hr0 : 0 ≤ row) (hrN : row < (N : Int))
    (col : Int) : ∃ b, isValidMove board row col player N = some b := by
  have hrlt : row.toNat < board.length := by rw [hsq.1]; omega
  have hrow : jsIndex board row = some board[row.toNat] := by
    unfold jsIndex
    rw [if_pos hr0, List.getElem?_eq_getElem hrlt]
  cases hcol : jsIndex board[row.toNat] col with
  | none => exact ⟨false, by simp only [isValidMove, hrow, hcol]⟩
  | some cell =>
    by_cases hc : cell ≠ none
    · exact ⟨false, by simp only [isValidMove, hrow, hcol, if_pos hc]⟩
    · refine ⟨directions.any fun d => checkDirection board player N d.1 d.2
        (N + 1) (row + d.1) (col + d.2) false, ?_⟩
      simp only [isValidMove, hrow, hcol, if_neg hc]

theorem foldlM_option_eq {α β : Type} (f : β → α → Option β) (g : β → α → β)
    (l : List α) (hfg : ∀ b a, a ∈ l → f b a = some (g b a)) (init : β) :
    l.foldlM f init = some (l.foldl g init) := by
  induction l generalizing init with
  | nil => rfl
  | cons x xs ih =>
    rw [List.foldlM_cons, hfg init x (by simp)]
    show xs.foldlM f (g init x) = _
    rw [ih (fun b a ha => hfg b a (List.mem_cons_of_mem _ ha))]
    rfl

theorem foldl_filter_append {β : Type} (l : List Nat) (P : Nat → Prop)
    [DecidablePred P] (g : Nat → β) (init : List β) :
    l.foldl (fun acc x => if P x then acc ++ [g x] else acc) init
      = init ++ (l.filter (fun x => decide (P x))).map g := by
  induction l generalizing init with
  | nil => simp
  | cons x xs ih =>
    by_cases hx : P x
    · simp [List.foldl_cons, if_pos hx, ih, List.filter_cons, hx]
    · simp [List.foldl_cons, if_neg hx, ih, List.filter_cons, hx]

theorem pairwise_flatMap_of {α : Type} {R : α → α → Prop} (l : List Nat)
    (g : Nat → List α)
    (hl : l.Pairwise (fun a b => ∀ x ∈ g a, ∀ y ∈ g b, R x y))
    (hg : ∀ a ∈ l, (g a).Pairwise R) : (l.flatMap g).Pairwise R := by
  induction l with
  | nil => simp
  | cons a l ih =>
    rw [List.pairwise_cons] at hl
    simp only [List.flatMap_cons]
    rw [List.pairwise_append]
    refine ⟨hg a (by simp), ih hl.2 (fun b hb => hg b (List.mem_cons_of_mem _ hb)), ?_⟩
    intro x hx y hy
    obtain ⟨b, hb, hyb⟩ := List.mem_flatMap.1 hy
    exact hl.1 b hb x hx y hyb

/-- On an `N×N` board, `getValidMoves` returns (without throwing) exactly
the coordinates on which `isValidMove` is `true`, in row-major order. -/
theorem getValidMoves_spec {board : Board} {N : Nat} (player : Player)
    (hsq : IsSquare board N) :
    ∃ L : List (Nat × Nat),
      getValidMoves board player N = some L ∧
      (∀ r c : Nat, (r, c) ∈ L ↔ r < N ∧ c < N ∧
        isValidMove board (r : Int) (c : Int) player N = some true) ∧
      L.Pairwise (fun p q => p.1 < q.1 ∨ (p.1 = q.1 ∧ p.2 < q.2)) ∧
      ((∀ r c : Nat, r < N → c < N →
        isValidMove board (r : Int) (c : Int) player N ≠ some true) →
        L = []) := by
  refine ⟨(List.range N).flatMap (fun (r : Nat) =>
      ((List.range N).filter (fun (c : Nat) =>
        decide (isValidMove board (r : Int) (c : Int) player N
          = some true))).map (fun (c : Nat) => (r, c))), ?_, ?_, ?_, ?_⟩
  · -- the computation returns it
    unfold getValidMoves
    simp only [Int.ofNat_eq_natCast]
    have hinner : ∀ (r : Nat), r < N → ∀ (moves : List (Nat × Nat)),
        (List.range N).foldlM (fun (moves2 : List (Nat × Nat)) (col : Nat) => do
          let v ← isValidMove board (r : Int) (col : Int) player N
          pure (if v then moves2 ++ [(r, col)] else moves2)) moves
        = some ((List.range N).foldl
            (fun (moves2 : List (Nat × Nat)) (col : Nat) =>
            if isValidMove board (r : Int) (col : Int) player N
              = some true then moves2 ++ [(r, col)] else moves2) moves) := by
      intro r hr moves
      apply foldlM_option_eq
      rintro m2 c -
      obtain ⟨b, hb⟩ := isValidMove_total player hsq
        (Int.natCast_nonneg r) (by exact_mod_cast hr) (c : Int)
      rw [hb]
      cases b <;> simp [hb]
    have houter : ∀ (l : List Nat), (∀ r ∈ l, r < N) →
        ∀ (init : List (Nat × Nat)),
        l.foldlM (fun (moves : List (Nat × Nat)) (r : Nat) =>
          (List.range N).foldlM
            (fun (moves2 : List (Nat × Nat)) (col : Nat) => do
            let v ← isValidMove board (r : Int) (col : Int) player N
            pure (if v then moves2 ++ [(r, col)] else moves2)) moves) init
        = some (init ++ l.flatMap (fun (r : Nat) =>
            ((List.range N).filter (fun (c : Nat) =>
              decide (isValidMove board (r : Int) (c : Int) player N
                = some true))).map (fun (c : Nat) => (r, c)))) := by
      intro l
      induction l with
      | nil => rintro - init; simp
      | cons r l ih =>
        intro hmem init
        rw [List.foldlM_cons, hinner r (hmem r (by simp)) init]
        show l.foldlM _ _ = _
        rw [ih (fun x hx => hmem x (List.mem_cons_of_mem _ hx))]
        rw [foldl_filter_append (List.range N)
          (fun (c : Nat) => isValidMove board (r : Int) (c : Int) player N
            = some true) (fun (c : Nat) => (r, c)) init]
        simp [List.flatMap_cons]
    rw [houter (List.range N) (fun r hr => List.mem_range.1 hr) []]
    simp
  · -- membership
    intro r c
    constructor
    · intro hmem
      obtain ⟨a, ha, hx⟩ := List.mem_flatMap.1 hmem
      obtain ⟨b, hb, heq⟩ := List.mem_map.1 hx
      obtain ⟨hbr, hv⟩ := List.mem_filter.1 hb
      injection heq with h1 h2
      subst h1; subst h2
      exact ⟨List.mem_range.1 ha, List.mem_range.1 hbr, of_decide_eq_true hv⟩
    · rintro ⟨hr, hc, hv⟩
      exact List.mem_flatMap.2 ⟨r, List.mem_range.2 hr,
        List.mem_map.2 ⟨c, List.mem_filter.2
          ⟨List.mem_range.2 hc, decide_eq_true hv⟩, rfl⟩⟩
  · -- row-major order
    apply pairwise_flatMap_of
    · apply (List.pairwise_lt_range N).imp
      intro a b hab x hx y hy
      obtain ⟨xc, -, hxeq⟩ := List.mem_map.1 hx
      obtain ⟨yc, -, hyeq⟩ := List.mem_map.1 hy
      subst hxeq; subst hyeq
      exact Or.inl hab
    · rintro a -
      rw [List.pairwise_map]
      apply List.Pairwise.filter
      apply (List.pairwise_lt_range N).imp
      intro x y hxy
      exact Or.inr ⟨rfl, hxy⟩
  · -- empty when no legal move
    intro hnone
    rw [List.flatMap_eq_nil_iff]
    intro r hr
    rw [List.map_eq_nil_iff, List.filter_eq_nil_iff]
    intro c hc
    simp only [decide_eq_true_eq]
    exact hnone r c (List.mem_range.1 hr) (List.mem_range.1 hc)

/-- C4: on an `N×N` board, `getValidMoves` returns (without throwing)
exactly the coordinates on which `isValidMove` is `true`, listed in
row-major order, and the empty list when the player has no legal move. -/
theorem C4_getValidMoves_correct {board : Board} {N : Nat} {player : Player}
    (hsq : IsSquare board N) :
    ∃ L : List (Nat × Nat),
      getValidMoves board player N = some L ∧
      (∀ r c : Nat, (r, c) ∈ L ↔ r < N ∧ c < N ∧
        isValidMove board (r : Int) (c : Int) player N = some true) ∧
      L.Pairwise (fun p q => p.1 < q.1 ∨ (p.1 = q.1 ∧ p.2 < q.2)) ∧
      ((∀ r c : Nat, r < N → c < N →
        isValidMove board (r : Int) (c : Int) player N ≠ some true) →
        L = []) :=
  getValidMoves_spec player hsq

/-- Witness for C4 on the 8×8 initial board with black to move. -/
theorem C4_witness :
    ∃ L : List (Nat × Nat),
      getValidMoves (createInitialBoard 8) Player.black 8 = some L ∧
      (∀ r c : Nat, (r, c) ∈ L ↔ r < 8 ∧ c < 8 ∧
        isValidMove (createInitialBoard 8) (r : Int) (c : Int) Player.black 8
          = some true) ∧
      L.Pairwise (fun p q => p.1 < q.1 ∨ (p.1 = q.1 ∧ p.2 < q.2)) ∧
      ((∀ r c : Nat, r < 8 → c < 8 →
        isValidMove (createInitialBoard 8) (r : Int) (c : Int) Player.black 8
          ≠ some true) → L = []) :=
  C4_getValidMoves_correct (by decide)

/-! ### The flipping scan of `makeMove` -/

/-- When the loop of one direction of `makeMove` meets `j` opponent cells
followed by a `player` cell (and the `toFlip.length > 0` test passes), it
flips exactly the accumulated cells. -/
theorem collectRun_eq_of_run {board : Board} {player : Player} {N : Nat}
    {dr dc : Int} (fuel : Nat) (r0 c0 : Int) (acc : List (Int × Int))
    {j : Nat} (hj : j < fuel)
    (hrun : ∀ i : Nat, i < j →
      inBounds N (r0 + (i : Int) * dr) (c0 + (i : Int) * dc) = true ∧
      getCell board (r0 + (i : Int) * dr) (c0 + (i : Int) * dc)
        = some (opponentOf player))
    (hendB : inBounds N (r0 + (j : Int) * dr) (c0 + (j : Int) * dc) = true)
    (hendC : getCell board (r0 + (j : Int) * dr) (c0 + (j : Int) * dc)
      = some player)
    (hflag : acc ≠ [] ∨ 0 < j) :
    collectRun board player N dr dc fuel r0 c0 acc
      = acc ++ (List.range j).map
          (fun (i : Nat) => (r0 + (i : Int) * dr, c0 + (i : Int) * dc)) := by
  induction fuel generalizing r0 c0 acc j with
  | zero => omega
  | succ fuel ih =>
    cases j with
    | zero =>
      simp only [Nat.cast_zero, zero_mul, add_zero] at hendB hendC
      have hne : ¬ getCell board r0 c0 = some (opponentOf player) := by
        rw [hendC]
        intro h
        injection h with h2
        exact opponentOf_ne player h2.symm
      have hacc : acc ≠ [] := by
        rcases hflag with h | h
        · exact h
        · omega
      show (if inBounds N r0 c0 then _ else []) = _
      rw [if_pos hendB, if_neg hne, if_pos ⟨hendC, hacc⟩]
      simp
    | succ j =>
      have h0 := hrun 0 (by omega)
      simp only [Nat.cast_zero, zero_mul, add_zero] at h0
      show (if inBounds N r0 c0 then _ else []) = _
      rw [if_pos h0.1, if_pos h0.2]
      have hrun2 : ∀ i : Nat, i < j →
          inBounds N ((r0 + dr) + (i : Int) * dr)
            ((c0 + dc) + (i : Int) * dc) = true ∧
          getCell board ((r0 + dr) + (i : Int) * dr)
            ((c0 + dc) + (i : Int) * dc) = some (opponentOf player) := by
        intro i hi
        have := hrun (i + 1) (by omega)
        rwa [rayStep r0 dr i, rayStep c0 dc i] at this
      have hendB2 : inBounds N ((r0 + dr) + (j : Int) * dr)
          ((c0 + dc) + (j : Int) * dc) = true := by
        have := hendB; rwa [rayStep r0 dr j, rayStep c0 dc j] at this
      have hendC2 : getCell board ((r0 + dr) + (j : Int) * dr)
          ((c0 + dc) + (j : Int) * dc) = some player := by
        have := hendC; rwa [rayStep r0 dr j, rayStep c0 dc j] at this
      rw [ih (r0 + dr) (c0 + dc) (acc ++ [(r0, c0)]) (by omega) hrun2 hendB2
        hendC2 (Or.inl (by simp))]
      rw [List.range_succ_eq_map, List.map_cons, List.map_map]
      have hmap : (List.range j).map
          ((fun (i : Nat) => (r0 + (i : Int) * dr, c0 + (i : Int) * dc))
            ∘ Nat.succ)
          = (List.range j).map (fun (i : Nat) =>
            ((r0 + dr) + (i : Int) * dr, (c0 + dc) + (i : Int) * dc)) := by
        apply List.map_congr_left
        rintro i -
        show (r0 + ((i + 1 : Nat) : Int) * dr, c0 + ((i + 1 : Nat) : Int) * dc)
          = _
        rw [rayStep r0 dr i, rayStep c0 dc i]
      rw [hmap]
      simp [List.append_assoc]

/-- When no position within `fuel` steps closes a (nonempty) opponent run
with a `player` cell, the loop flips nothing. -/
theorem collectRun_eq_nil {board : Board} {player : Player} {N : Nat}
    {dr dc : Int} (fuel : Nat) (r0 c0 : Int) (acc : List (Int × Int))
    (hno : ∀ j : Nat, j < fuel →
      ¬((∀ i : Nat, i < j →
          inBounds N (r0 + (i : Int) * dr) (c0 + (i : Int) * dc) = true ∧
          getCell board (r0 + (i : Int) * dr) (c0 + (i : Int) * dc)
            = some (opponentOf player)) ∧
        inBounds N (r0 + (j : Int) * dr) (c0 + (j : Int) * dc) = true ∧
        getCell board (r0 + (j : Int) * dr) (c0 + (j : Int) * dc)
          = some player ∧
        (acc ≠ [] ∨ 0 < j))) :
    collectRun board player N dr dc fuel r0 c0 acc = [] := by
  induction fuel generalizing r0 c0 acc with
  | zero => rfl
  | succ fuel ih =>
    by_cases hb : inBounds N r0 c0 = true
    · by_cases hopp : getCell board r0 c0 = some (opponentOf player)
      · show (if inBounds N r0 c0 then _ else []) = []
        rw [if_pos hb, if_pos hopp]
        apply ih
        intro j hjf hpat
        apply hno (j + 1) (by omega)
        refine ⟨?_, ?_, ?_, Or.inr (by omega)⟩
        · intro i hi
          cases i with
          | zero =>
            simpa only [Nat.cast_zero, zero_mul, add_zero] using ⟨hb, hopp⟩
          | succ i =>
            rw [rayStep r0 dr i, rayStep c0 dc i]
            exact hpat.1 i (by omega)
        · rw [rayStep r0 dr j, rayStep c0 dc j]
          exact hpat.2.1
        · rw [rayStep r0 dr j, rayStep c0 dc j]
          exact hpat.2.2.1
      · by_cases hpl : getCell board r0 c0 = some player ∧ acc ≠ []
        · exfalso
          apply hno 0 (by omega)
          refine ⟨by omega, ?_, ?_, Or.inl hpl.2⟩
          · simpa only [Nat.cast_zero, zero_mul, add_zero] using hb
          · simpa only [Nat.cast_zero, zero_mul, add_zero] using hpl.1
        · show (if inBounds N r0 c0 then _ else []) = []
          rw [if_pos hb, if_neg hopp, if_neg hpl]
    · show (if inBounds N r0 c0 then _ else []) = []
      rw [if_neg hb]

/-- The flip scan reads only the cells along its own ray: boards agreeing on
the ray give the same flip list. -/
theorem collectRun_congr {b1 b2 : Board} {player : Player} {N : Nat}
    {dr dc : Int} (fuel : Nat) (r0 c0 : Int) (acc : List (Int × Int))
    (hray : ∀ i : Nat, getCell b1 (r0 + (i : Int) * dr) (c0 + (i : Int) * dc)
      = getCell b2 (r0 + (i : Int) * dr) (c0 + (i : Int) * dc)) :
    collectRun b1 player N dr dc fuel r0 c0 acc
      = collectRun b2 player N dr dc fuel r0 c0 acc := by
  induction fuel generalizing r0 c0 acc with
  | zero => rfl
  | succ fuel ih =>
    have h0 := hray 0
    simp only [Nat.cast_zero, zero_mul, add_zero] at h0
    show (if inBounds N r0 c0 then _ else []) =
      (if inBounds N r0 c0 then _ else [])
    by_cases hb : inBounds N r0 c0 = true
    · rw [if_pos hb, if_pos hb, h0]
      by_cases hopp : getCell b2 r0 c0 = some (opponentOf player)
      · rw [if_pos hopp, if_pos hopp]
        apply ih
        intro i
        have := hray (i + 1)
        rwa [rayStep r0 dr i, rayStep c0 dc i] at this
      · rw [if_neg hopp, if_neg hopp]
    · rw [if_neg hb, if_neg hb]

/-! ### Geometry of the 8 rays -/

/-- No ray revisits its origin. -/
theorem ray_ne_origin {d : Int × Int} (hd : d ∈ directions) {i : Nat}
    (hi : 1 ≤ i) (row col : Int) :
    ¬(row + (i : Int) * d.1 = row ∧ col + (i : Int) * d.2 = col) := by
  fin_cases hd <;> simp only at * <;> omega

/-- Rays of two distinct directions from the same origin are disjoint. -/
theorem rays_disjoint {d d2 : Int × Int} (hd : d ∈ directions)
    (hd2 : d2 ∈ directions) (hne : d ≠ d2) {i j : Nat} (hi : 1 ≤ i)
    (hj : 1 ≤ j) (row col : Int) :
    ¬(row + (i : Int) * d.1 = row + (j : Int) * d2.1 ∧
      col + (i : Int) * d.2 = col + (j : Int) * d2.2) := by
  fin_cases hd <;> fin_cases hd2 <;>
    first
      | exact absurd rfl hne
      | (simp only at *; omega)

/-- Membership in the run cells of a capture of length `k`. -/
theorem mem_runCells {row col : Int} {d : Int × Int} {k : Nat}
    {q : Int × Int} :
    q ∈ runCells row col d k ↔ ∃ i : Nat, 1 ≤ i ∧ i ≤ k ∧
      q = (row + (i : Int) * d.1, col + (i : Int) * d.2) := by
  unfold runCells
  rw [List.mem_map]
  constructor
  · rintro ⟨i, hi, rfl⟩
    have hik := List.mem_range.1 hi
    exact ⟨i + 1, by omega, by omega, rfl⟩
  · rintro ⟨i, h1, hk, rfl⟩
    cases i with
    | zero => omega
    | succ i => exact ⟨i, List.mem_range.2 (by omega), rfl⟩

/-- A capture run in a fixed direction has a unique length. -/
theorem CaptureRun_unique {board : Board} {row col : Int} {player : Player}
    {N : Nat} {d : Int × Int} {k1 k2 : Nat}
    (h1 : CaptureRun board row col player N d k1)
    (h2 : CaptureRun board row col player N d k2) : k1 = k2 := by
  rcases lt_trichotomy k1 k2 with h | h | h
  · exfalso
    have hopp := h2.2.1 (k1 + 1) (by omega) (by omega)
    have hpl := h1.2.2.2
    rw [show ((k1 : Int) + 1) = ((k1 + 1 : Nat) : Int) by push_cast; ring]
      at hpl
    rw [hpl] at hopp
    injection hopp.2 with hq
    exact opponentOf_ne player hq.symm
  · exact h
  · exfalso
    have hopp := h1.2.1 (k2 + 1) (by omega) (by omega)
    have hpl := h2.2.2.2
    rw [show ((k2 : Int) + 1) = ((k2 + 1 : Nat) : Int) by push_cast; ring]
      at hpl
    rw [hpl] at hopp
    injection hopp.2 with hq
    exact opponentOf_ne player hq.symm

/-! ### Folding flips into the board -/

theorem IsSquare_foldl_setCell {N : Nat} (L : List (Int × Int))
    (player : Player) :
    ∀ {b : Board}, IsSquare b N →
    IsSquare (L.foldl (fun acc rc => setCell acc rc.1 rc.2 (some player)) b)
      N := by
  induction L with
  | nil => intro b hsq; exact hsq
  | cons p L ih =>
    intro b hsq
    exact ih (IsSquare_setCell hsq _ _ _)

theorem getCell_foldl_setCell {N : Nat} (L : List (Int × Int))
    (player : Player) :
    ∀ {b : Board}, IsSquare b N →
    (∀ p ∈ L, inBounds N p.1 p.2 = true) → ∀ (r c : Int),
    getCell (L.foldl (fun acc rc => setCell acc rc.1 rc.2 (some player)) b) r c
      = if (r, c) ∈ L then some player else getCell b r c := by
  induction L with
  | nil =>
    intro b hsq hLin r c
    simp
  | cons p L ih =>
    intro b hsq hLin r c
    have hp := hLin p (by simp)
    have hp0 : 0 ≤ p.1 ∧ 0 ≤ p.2 := by
      rw [inBounds_iff] at hp
      exact ⟨hp.1, hp.2.2.1⟩
    rw [List.foldl_cons,
      ih (IsSquare_setCell hsq _ _ _)
        (fun q hq => hLin q (List.mem_cons_of_mem _ hq)) r c]
    by_cases hmem : (r, c) ∈ L
    · rw [if_pos hmem, if_pos (List.mem_cons_of_mem _ hmem)]
    · rw [if_neg hmem]
      by_cases heq : (r, c) = p
      · rw [if_pos (heq ▸ List.mem_cons_self p L)]
        have : r = p.1 ∧ c = p.2 := by
          rw [Prod.ext_iff] at heq
          exact heq
        rw [this.1, this.2]
        exact getCell_setCell_same hsq hp (some player)
      · rw [if_neg (by
          intro hc
          rcases List.mem_cons.1 hc with hc | hc
          · exact heq hc
          · exact hmem hc)]
        apply getCell_setCell_other hp0.1 hp0.2
        intro hc
        apply heq
        rw [Prod.ext_iff]
        exact hc

/-- A direction whose run closes on a `player` cell flips exactly its run. -/
theorem flipDir_of_capture {board : Board} {N : Nat} {row col : Int}
    {player : Player} {d : Int × Int} (hd : d ∈ directions)
    (hin : inBounds N row col = true) {k : Nat}
    (hcap : CaptureRun board row col player N d k) :
    flipDir board row col player N d
      = (runCells row col d k).foldl
          (fun acc rc => setCell acc rc.1 rc.2 (some player)) board := by
  unfold flipDir
  obtain ⟨hk, hrun, hendB, hendC⟩ := hcap
  have hrun2 : ∀ i : Nat, i < k →
      inBounds N ((row + d.1) + (i : Int) * d.1)
        ((col + d.2) + (i : Int) * d.2) = true ∧
      getCell board ((row + d.1) + (i : Int) * d.1)
        ((col + d.2) + (i : Int) * d.2) = some (opponentOf player) := by
    intro i hi
    have := hrun (i + 1) (by omega) (by omega)
    rwa [rayStep row d.1 i, rayStep col d.2 i] at this
  rw [show ((k : Int) + 1) = ((k + 1 : Nat) : Int) by push_cast; ring]
    at hendB hendC
  have hbound : k + 1 ≤ N := ray_bound hd hin hendB
  rw [rayStep row d.1 k, rayStep col d.2 k] at hendB hendC
  rw [collectRun_eq_of_run (N + 1) (row + d.1) (col + d.2) [] (by omega)
    hrun2 hendB hendC (Or.inr hk)]
  have hmap : (List.range k).map (fun (i : Nat) =>
      ((row + d.1) + (i : Int) * d.1, (col + d.2) + (i : Int) * d.2))
      = runCells row col d k := by
    unfold runCells
    apply List.map_congr_left
    rintro i -
    rw [rayStep row d.1 i, rayStep col d.2 i]
  rw [List.nil_append, hmap]

/-- A direction whose run is not closed by a `player` cell flips nothing. -/
theorem flipDir_of_no_capture {board : Board} {N : Nat} {row col : Int}
    {player : Player} {d : Int × Int} (hd : d ∈ directions)
    (hin : inBounds N row col = true)
    (hno : ¬CapturesInDir board row col player N d) :
    flipDir board row col player N d = board := by
  unfold flipDir
  rw [collectRun_eq_nil (N + 1) (row + d.1) (col + d.2) []]
  · rfl
  · intro j hj hpat
    apply hno
    have hjpos : 0 < j := by
      rcases hpat.2.2.2 with h | h
      · simp at h
      · exact h
    refine ⟨j, hjpos, ?_, ?_, ?_⟩
    · intro i h1 hik
      cases i with
      | zero => omega
      | succ i =>
        rw [rayStep row d.1 i, rayStep col d.2 i]
        exact hpat.1 i (by omega)
    · rw [show ((j : Int) + 1) = ((j + 1 : Nat) : Int) by push_cast; ring,
        rayStep row d.1 j, rayStep col d.2 j]
      exact hpat.2.1
    · rw [show ((j : Int) + 1) = ((j + 1 : Nat) : Int) by push_cast; ring,
        rayStep row d.1 j, rayStep col d.2 j]
      exact hpat.2.2.1

/-- Handling one more direction preserves the flipping-loop invariant. -/
theorem FlipState_flipDir {board : Board} {N : Nat} {row col : Int}
    {player : Player} (hsq : IsSquare board N)
    (hin : inBounds N row col = true) {processed : List (Int × Int)}
    (hproc : ∀ d2 ∈ processed, d2 ∈ directions)
    {d : Int × Int} (hd : d ∈ directions) (hdnp : d ∉ processed)
    {acc : Board} (hst : FlipState board row col player N processed acc) :
    FlipState board row col player N (processed ++ [d])
      (flipDir acc row col player N d) := by
  obtain ⟨hsqa, horigin, hflip, hsame⟩ := hst
  have hray : ∀ i : Nat, 1 ≤ i →
      getCell acc (row + (i : Int) * d.1) (col + (i : Int) * d.2)
        = getCell board (row + (i : Int) * d.1) (col + (i : Int) * d.2) := by
    intro i hi
    apply hsame
    · intro hc
      rw [Prod.ext_iff] at hc
      exact ray_ne_origin hd hi row col ⟨hc.1, hc.2⟩
    · rintro ⟨d2, hd2p, i2, k2, hcap2, h1i2, hik2, hr2, hc2⟩
      exact rays_disjoint hd (hproc d2 hd2p)
        (by rintro rfl; exact hdnp hd2p) hi h1i2 row col ⟨hr2, hc2⟩
  have hcollect : ∀ b2 : Board,
      (∀ i : Nat, 1 ≤ i →
        getCell acc (row + (i : Int) * d.1) (col + (i : Int) * d.2)
          = getCell b2 (row + (i : Int) * d.1) (col + (i : Int) * d.2)) →
      collectRun acc player N d.1 d.2 (N + 1) (row + d.1) (col + d.2) []
        = collectRun b2 player N d.1 d.2 (N + 1) (row + d.1) (col + d.2) [] := by
    intro b2 hb2
    apply collectRun_congr
    intro i
    have := hb2 (i + 1) (by omega)
    rwa [rayStep row d.1 i, rayStep col d.2 i] at this
  by_cases hcapd : CapturesInDir board row col player N d
  · obtain ⟨k, hcap⟩ := hcapd
    have hcapacc : CaptureRun acc row col player N d k := by
      obtain ⟨hk, hrun, hendB, hendC⟩ := hcap
      refine ⟨hk, ?_, hendB, ?_⟩
      · intro i h1 hik
        rw [hray i h1]
        exact hrun i h1 hik
      · rw [show ((k : Int) + 1) = ((k + 1 : Nat) : Int) by push_cast; ring]
          at hendC ⊢
        rw [hray (k + 1) (by omega)]
        exact hendC
    have heq : flipDir acc row col player N d
        = (runCells row col d k).foldl
            (fun a rc => setCell a rc.1 rc.2 (some player)) acc :=
      flipDir_of_capture hd hin hcapacc
    have hrin : ∀ p ∈ runCells row col d k, inBounds N p.1 p.2 = true := by
      intro p hp
      obtain ⟨i, h1, hik, rfl⟩ := mem_runCells.1 hp
      exact (hcap.2.1 i h1 hik).1
    have hget := getCell_foldl_setCell (runCells row col d k) player hsqa hrin
    have horignot : ((row, col) : Int × Int) ∉ runCells row col d k := by
      intro hmem
      obtain ⟨i, h1, hik, heq2⟩ := mem_runCells.1 hmem
      rw [Prod.ext_iff] at heq2
      exact ray_ne_origin hd h1 row col ⟨heq2.1.symm, heq2.2.symm⟩
    refine ⟨?_, ?_, ?_, ?_⟩
    · rw [heq]; exact IsSquare_foldl_setCell _ _ hsqa
    · rw [heq, hget row col, if_neg horignot]
      exact horigin
    · rintro r c ⟨d2, hd2, i, k2, hcap2, h1, hik, rfl, rfl⟩
      rcases List.mem_append.1 hd2 with hd2p | hd2d
      · rw [heq, hget]
        by_cases hmem : ((row + (i : Int) * d2.1, col + (i : Int) * d2.2)
            : Int × Int) ∈ runCells row col d k
        · rw [if_pos hmem]
        · rw [if_neg hmem]
          exact hflip _ _ ⟨d2, hd2p, i, k2, hcap2, h1, hik, rfl, rfl⟩
      · have hd2eq : d2 = d := by simpa using hd2d
        subst hd2eq
        have hkk : k2 = k := CaptureRun_unique hcap2 hcap
        subst hkk
        rw [heq, hget]
        rw [if_pos (mem_runCells.2 ⟨i, h1, hik, rfl⟩)]
    · intro r c hnorig hnflip
      rw [heq, hget]
      rw [if_neg ?_]
      · apply hsame r c hnorig
        rintro ⟨d2, hd2, rest⟩
        exact hnflip ⟨d2, List.mem_append_left _ hd2, rest⟩
      · intro hmem
        obtain ⟨i, h1, hik, heq2⟩ := mem_runCells.1 hmem
        rw [Prod.ext_iff] at heq2
        exact hnflip ⟨d, List.mem_append_right _ (by simp), i, k, hcap,
          h1, hik, heq2.1, heq2.2⟩
  · have hnone : flipDir acc row col player N d = acc := by
      apply flipDir_of_no_capture hd hin
      intro hcapacc
      apply hcapd
      obtain ⟨k, hk, hrun, hendB, hendC⟩ := hcapacc
      refine ⟨k, hk, ?_, hendB, ?_⟩
      · intro i h1 hik
        rw [← hray i h1]
        exact hrun i h1 hik
      · rw [show ((k : Int) + 1) = ((k + 1 : Nat) : Int) by push_cast; ring]
          at hendC ⊢
        rw [← hray (k + 1) (by omega)]
        exact hendC
    rw [hnone]
    refine ⟨hsqa, horigin, ?_, ?_⟩
    · rintro r c ⟨d2, hd2, i, k2, hcap2, h1, hik, hr, hc⟩
      rcases List.mem_append.1 hd2 with hd2p | hd2d
      · exact hflip r c ⟨d2, hd2p, i, k2, hcap2, h1, hik, hr, hc⟩
      · exfalso
        apply hcapd
        have hd2eq : d2 = d := by simpa using hd2d
        subst hd2eq
        exact ⟨k2, hcap2⟩
    · intro r c hnorig hnflip
      apply hsame r c hnorig
      rintro ⟨d2, hd2, rest⟩
      exact hnflip ⟨d2, List.mem_append_left _ hd2, rest⟩

/-- The flipping loop over any suffix of directions preserves the invariant. -/
theorem FlipState_fold {board : Board} {N : Nat} {row col : Int}
    {player : Player} (hsq : IsSquare board N)
    (hin : inBounds N row col = true) :
    ∀ (ds processed : List (Int × Int)),
      (∀ d ∈ ds, d ∈ directions) → (∀ d ∈ processed, d ∈ directions) →
      (∀ d ∈ ds, d ∉ processed) → ds.Nodup →
      ∀ acc, FlipState board row col player N processed acc →
      FlipState board row col player N (processed ++ ds)
        (ds.foldl (fun a d => flipDir a row col player N d) acc) := by
  intro ds
  induction ds with
  | nil =>
    rintro processed - - - - acc hst
    simpa using hst
  | cons d rest ih =>
    intro processed hds hproc hdisj hnodup acc hst
    rw [List.foldl_cons]
    have hstep := FlipState_flipDir hsq hin hproc (hds d (by simp))
      (hdisj d (by simp)) hst
    have hres := ih (processed ++ [d])
      (fun x hx => hds x (by simp [hx]))
      (fun x hx => by
        rcases List.mem_append.1 hx with h | h
        · exact hproc x h
        · have : x = d := by simpa using h
          subst this
          exact hds x (by simp))
      (fun x hx => by
        intro hmem
        rcases List.mem_append.1 hmem with h | h
        · exact hdisj x (by simp [hx]) h
        · have : x = d := by simpa using h
          subst this
          exact (List.nodup_cons.1 hnodup).1 hx)
      (List.nodup_cons.1 hnodup).2
      _ hstep
    rwa [List.append_assoc, List.singleton_append] at hres

/-- Characterisation of the board produced by the mutation phase of
`makeMove`: the move cell holds `player`, every cell of a closed opponent
run holds `player`, and every other cell is untouched. -/
theorem mutatePhase_getCell {board : Board} {N : Nat} {row col : Int}
    (player : Player) (hsq : IsSquare board N)
    (hin : inBounds N row col = true) :
    IsSquare (mutatePhase board row col player N) N ∧
    getCell (mutatePhase board row col player N) row col = some player ∧
    (∀ r c : Int, FlipsTo board row col player N directions r c →
      getCell (mutatePhase board row col player N) r c = some player) ∧
    (∀ r c : Int, ¬((r, c) = (row, col)) →
      ¬FlipsTo board row col player N directions r c →
      getCell (mutatePhase board row col player N) r c
        = getCell board r c) := by
  have hr0 : 0 ≤ row := by rw [inBounds_iff] at hin; exact hin.1
  have hc0 : 0 ≤ col := by rw [inBounds_iff] at hin; exact hin.2.2.1
  have hinit : FlipState board row col player N []
      (setCell board row col (some player)) := by
    refine ⟨IsSquare_setCell hsq _ _ _, getCell_setCell_same hsq hin _,
      ?_, ?_⟩
    · rintro r c ⟨d, hd, -⟩
      simp at hd
    · rintro r c hnorig -
      apply getCell_setCell_other hr0 hc0
      intro hc
      exact hnorig (by rw [Prod.ext_iff]; exact hc)
  have hfin := FlipState_fold hsq hin directions [] (fun d hd => hd)
    (by simp) (by simp) (by decide) _ hinit
  rw [List.nil_append] at hfin
  exact ⟨hfin.1, hfin.2.1, hfin.2.2.1, hfin.2.2.2⟩

/-- A move that `isValidMove` accepts targets an empty cell. -/
theorem legal_implies_empty {board : Board} {N : Nat} {row col : Int}
    {player : Player} (hsq : IsSquare board N)
    (hin : inBounds N row col = true)
    (hlegal : isValidMove board row col player N = some true) :
    getCell board row col = none := by
  by_contra hne
  rw [isValidMove_eq_any player hsq hin, if_pos hne] at hlegal
  cases hlegal

/-- C2: applying a legal move places the player's piece at the move cell,
flips exactly the contiguous opponent runs that terminate in a cell of the
player (independently per direction), leaves every other cell unchanged,
and every cell changed from opponent to player lies on one of the 8 rays
from the origin with no empty cell between it and the origin. -/
theorem C2_makeMove_correct {board : Board} {N : Nat} {row col : Int}
    {player : Player} (hsq : IsSquare board N)
    (hin : inBounds N row col = true)
    (hlegal : isValidMove board row col player N = some true) :
    ∃ nb : Board, makeMove board row col player N = some nb ∧
      getCell nb row col = some player ∧
      (∀ d ∈ directions, ∀ k : Nat, CaptureRun board row col player N d k →
        ∀ i : Nat, 1 ≤ i → i ≤ k →
          getCell nb (row + (i : Int) * d.1) (col + (i : Int) * d.2)
            = some player) ∧
      (∀ d ∈ directions, ¬CapturesInDir board row col player N d →
        ∀ i : Nat, 1 ≤ i →
          getCell nb (row + (i : Int) * d.1) (col + (i : Int) * d.2)
            = getCell board (row + (i : Int) * d.1) (col + (i : Int) * d.2)) ∧
      (∀ r c : Int, ¬((r, c) = (row, col)) →
        ¬FlipsTo board row col player N directions r c →
        getCell nb r c = getCell board r c) ∧
      (∀ r c : Int, getCell board r c = some (opponentOf player) →
        getCell nb r c = some player →
        ∃ d ∈ directions, ∃ i : Nat, 1 ≤ i ∧
          r = row + (i : Int) * d.1 ∧ c = col + (i : Int) * d.2 ∧
          ∀ j : Nat, 1 ≤ j → j ≤ i →
            getCell board (row + (j : Int) * d.1) (col + (j : Int) * d.2)
              ≠ none) := by
  have hmk : makeMove board row col player N
      = some (mutatePhase board row col player N) := by
    simp [makeMove, hlegal]
  obtain ⟨-, horig, hflip, hsame⟩ := mutatePhase_getCell player
    hsq hin
  refine ⟨_, hmk, horig, ?_, ?_, hsame, ?_⟩
  · intro d hd k hcap i h1 hik
    exact hflip _ _ ⟨d, hd, i, k, hcap, h1, hik, rfl, rfl⟩
  · intro d hd hnocap i h1
    apply hsame
    · intro hc
      rw [Prod.ext_iff] at hc
      exact ray_ne_origin hd h1 row col ⟨hc.1, hc.2⟩
    · rintro ⟨d2, hd2, i2, k2, hcap2, h12, hik2, hr, hc⟩
      by_cases hdd : d2 = d
      · subst hdd; exact hnocap ⟨k2, hcap2⟩
      · exact rays_disjoint hd hd2 (fun h => hdd h.symm) h1 h12 row col
          ⟨hr, hc⟩
  · intro r c hopp hnb
    by_cases hforig : (r, c) = ((row, col) : Int × Int)
    · exfalso
      have hempty := legal_implies_empty hsq hin hlegal
      rw [Prod.mk.injEq] at hforig
      rw [hforig.1, hforig.2, hempty] at hopp
      cases hopp
    · by_cases hf : FlipsTo board row col player N directions r c
      · obtain ⟨d, hd, i, k, hcap, h1, hik, hr, hc⟩ := hf
        refine ⟨d, hd, i, h1, hr, hc, ?_⟩
        intro j hj1 hji
        rw [(hcap.2.1 j hj1 (by omega)).2]
        simp
      · exfalso
        rw [hsame r c hforig hf, hopp] at hnb
        injection hnb with hq
        exact opponentOf_ne player hq

/-- Witness for C2: black plays the standard opening move `(2, 3)` on the
8×8 initial board. -/
theorem C2_witness :
    ∃ nb : Board, makeMove (createInitialBoard 8) 2 3 Player.black 8
        = some nb ∧
      getCell nb 2 3 = some Player.black ∧
      (∀ d ∈ directions, ∀ k : Nat,
        CaptureRun (createInitialBoard 8) 2 3 Player.black 8 d k →
        ∀ i : Nat, 1 ≤ i → i ≤ k →
          getCell nb (2 + (i : Int) * d.1) (3 + (i : Int) * d.2)
            = some Player.black) ∧
      (∀ d ∈ directions,
        ¬CapturesInDir (createInitialBoard 8) 2 3 Player.black 8 d →
        ∀ i : Nat, 1 ≤ i →
          getCell nb (2 + (i : Int) * d.1) (3 + (i : Int) * d.2)
            = getCell (createInitialBoard 8) (2 + (i : Int) * d.1)
                (3 + (i : Int) * d.2)) ∧
      (∀ r c : Int, ¬((r, c) = ((2 : Int), (3 : Int))) →
        ¬FlipsTo (createInitialBoard 8) 2 3 Player.black 8 directions r c →
        getCell nb r c = getCell (createInitialBoard 8) r c) ∧
      (∀ r c : Int,
        getCell (createInitialBoard 8) r c
          = some (opponentOf Player.black) →
        getCell nb r c = some Player.black →
        ∃ d ∈ directions, ∃ i : Nat, 1 ≤ i ∧
          r = 2 + (i : Int) * d.1 ∧ c = 3 + (i : Int) * d.2 ∧
          ∀ j : Nat, 1 ≤ j → j ≤ i →
            getCell (createInitialBoard 8) (2 + (j : Int) * d.1)
              (3 + (j : Int) * d.2) ≠ none) :=
  C2_makeMove_correct (by decide) (by decide) (by decide)

/-! ### Occupancy counting -/

theorem mem_allPositions {N i j : Nat} :
    (i, j) ∈ allPositions N ↔ i < N ∧ j < N := by
  unfold allPositions
  constructor
  · intro h
    obtain ⟨a, ha, hx⟩ := List.mem_flatMap.1 h
    obtain ⟨b, hb, heq⟩ := List.mem_map.1 hx
    injection heq with h1 h2
    subst h1; subst h2
    exact ⟨List.mem_range.1 ha, List.mem_range.1 hb⟩
  · rintro ⟨hi, hj⟩
    exact List.mem_flatMap.2 ⟨i, List.mem_range.2 hi,
      List.mem_map.2 ⟨j, List.mem_range.2 hj, rfl⟩⟩

theorem nodup_allPositions (N : Nat) : (allPositions N).Nodup := by
  unfold allPositions
  apply pairwise_flatMap_of
  · apply (List.pairwise_lt_range N).imp
    intro a b hab x hx y hy
    obtain ⟨xc, -, hxeq⟩ := List.mem_map.1 hx
    obtain ⟨yc, -, hyeq⟩ := List.mem_map.1 hy
    subst hxeq; subst hyeq
    intro heq
    injection heq with h1 h2
    omega
  · rintro a -
    rw [List.pairwise_map]
    apply (List.pairwise_lt_range N).imp
    intro x y hxy heq
    injection heq with h1 h2
    omega

/-- Counting a boolean predicate that flips from `false` to `true` at
exactly one element of a duplicate-free list. -/
theorem countP_change_one {α : Type} [DecidableEq α] {l : List α}
    (hnd : l.Nodup) {f g : α → Bool} {a : α} (hal : a ∈ l)
    (hfa : f a = true) (hga : g a = false)
    (hother : ∀ x ∈ l, x ≠ a → f x = g x) :
    l.countP f = l.countP g + 1 := by
  induction l with
  | nil => cases hal
  | cons x xs ih =>
    rw [List.nodup_cons] at hnd
    rcases List.mem_cons.1 hal with rfl | hmem
    · have hcong : xs.countP f = xs.countP g := by
        apply List.countP_congr
        intro y hy
        rw [hother y (List.mem_cons_of_mem _ hy)
          (fun heq => hnd.1 (heq ▸ hy))]
      simp [List.countP_cons, hfa, hga, hcong]
    · have hxa : x ≠ a := by rintro rfl; exact hnd.1 hmem
      rw [List.countP_cons, List.countP_cons, hother x (by simp) hxa,
        ih hnd.2 hmem (fun y hy hne => hother y (List.mem_cons_of_mem _ hy)
          hne)]
      ring

/-- A cell flipped by the move held an opponent piece before the move. -/
theorem FlipsTo_opponent {board : Board} {row col : Int} {player : Player}
    {N : Nat} {r c : Int}
    (hf : FlipsTo board row col player N directions r c) :
    getCell board r c = some (opponentOf player) := by
  obtain ⟨d, hd, i, k, hcap, h1, hik, rfl, rfl⟩ := hf
  exact (hcap.2.1 i h1 hik).2

/-- C10: a legal move keeps every occupied cell occupied, the only cell
that changes from empty to occupied is the move cell itself, and the number
of occupied cells increases by exactly one. -/
theorem C10_occupancy {board : Board} {N : Nat} {row col : Int}
    {player : Player} (hsq : IsSquare board N)
    (hin : inBounds N row col = true)
    (hlegal : isValidMove board row col player N = some true) :
    ∃ nb : Board, makeMove board row col player N = some nb ∧
      (∀ r c : Int, getCell board r c ≠ none → getCell nb r c ≠ none) ∧
      (∀ r c : Int, getCell board r c = none → getCell nb r c ≠ none →
        (r, c) = ((row, col) : Int × Int)) ∧
      occupiedCount nb N = occupiedCount board N + 1 := by
  have hmk : makeMove board row col player N
      = some (mutatePhase board row col player N) := by
    simp [makeMove, hlegal]
  obtain ⟨-, horig, hflip, hsame⟩ := mutatePhase_getCell player
    hsq hin
  have hempty := legal_implies_empty hsq hin hlegal
  have hb := hin
  rw [inBounds_iff] at hb
  refine ⟨_, hmk, ?_, ?_, ?_⟩
  · intro r c hne
    by_cases horigq : (r, c) = ((row, col) : Int × Int)
    · rw [Prod.mk.injEq] at horigq
      rw [horigq.1, horigq.2, horig]
      simp
    · by_cases hf : FlipsTo board row col player N directions r c
      · rw [hflip r c hf]; simp
      · rw [hsame r c horigq hf]; exact hne
  · intro r c hnone hne
    by_cases hf : FlipsTo board row col player N directions r c
    · exfalso
      rw [FlipsTo_opponent hf] at hnone
      cases hnone
    · by_contra horigq
      exact hne (by rw [hsame r c horigq hf]; exact hnone)
  · unfold occupiedCount
    apply countP_change_one (nodup_allPositions N)
      (a := (row.toNat, col.toNat))
    · apply mem_allPositions.2
      constructor <;> omega
    · show decide (getCell (mutatePhase board row col player N)
        ((row.toNat : Nat) : Int) ((col.toNat : Nat) : Int) ≠ none) = true
      rw [Int.toNat_of_nonneg hb.1, Int.toNat_of_nonneg hb.2.2.1, horig]
      simp
    · show decide (getCell board ((row.toNat : Nat) : Int)
        ((col.toNat : Nat) : Int) ≠ none) = false
      rw [Int.toNat_of_nonneg hb.1, Int.toNat_of_nonneg hb.2.2.1, hempty]
      simp
    · intro p hp hpa
      show decide (getCell (mutatePhase board row col player N)
          ((p.1 : Nat) : Int) ((p.2 : Nat) : Int) ≠ none)
        = decide (getCell board ((p.1 : Nat) : Int) ((p.2 : Nat) : Int)
          ≠ none)
      by_cases hf : FlipsTo board row col player N directions
          ((p.1 : Nat) : Int) ((p.2 : Nat) : Int)
      · rw [hflip _ _ hf, FlipsTo_opponent hf]
        simp
      · have hporig : ¬((((p.1 : Nat) : Int), ((p.2 : Nat) : Int))
            = ((row, col) : Int × Int)) := by
          intro hc
          rw [Prod.mk.injEq] at hc
          apply hpa
          have h1 : p.1 = row.toNat := by omega
          have h2 : p.2 = col.toNat := by omega
          exact Prod.ext h1 h2
        rw [hsame _ _ hporig hf]

/-- Witness for C10: black plays `(2, 3)` on the 8×8 initial board. -/
theorem C10_witness :
    ∃ nb : Board, makeMove (createInitialBoard 8) 2 3 Player.black 8
        = some nb ∧
      (∀ r c : Int, getCell (createInitialBoard 8) r c ≠ none →
        getCell nb r c ≠ none) ∧
      (∀ r c : Int, getCell (createInitialBoard 8) r c = none →
        getCell nb r c ≠ none → (r, c) = (((2 : Int), (3 : Int)))) ∧
      occupiedCount nb 8 = occupiedCount (createInitialBoard 8) 8 + 1 :=
  C10_occupancy (by decide) (by decide) (by decide)

/-! ### The controller turn policy -/

/-- A nonempty legal-move list is exactly `HasMove`. -/
theorem hasMove_iff_moves_ne_nil {board : Board} {N : Nat} (player : Player)
    (hsq : IsSquare board N) :
    ∃ L : List (Nat × Nat), getValidMoves board player N = some L ∧
      (0 < L.length ↔ HasMove board player N) := by
  obtain ⟨L, hgv, hmem, -, -⟩ := getValidMoves_spec player hsq
  refine ⟨L, hgv, ?_⟩
  rw [List.length_pos]
  constructor
  · intro hne
    obtain ⟨⟨r, c⟩, hq⟩ := List.exists_mem_of_ne_nil L hne
    obtain ⟨hr, hc, hv⟩ := (hmem r c).1 hq
    exact ⟨r, c, hr, hc, hv⟩
  · rintro ⟨r, c, hr, hc, hv⟩
    intro hnil
    rw [hnil] at hmem
    exact absurd ((hmem r c).2 ⟨hr, hc, hv⟩) (by simp)

/-- C5: after a legal move by the current player, the turn passes to the
opponent when they have a legal move on the new board; otherwise the mover
keeps the turn when they still have one; otherwise the game ends and the
winner is decided by strict `countPieces` comparison (tie on equality). -/
theorem C5_turn_policy {s : GameSt} {N : Nat} {row col : Int}
    (hsq : IsSquare s.board N) (hgo : s.gameOver = false)
    (hin : inBounds N row col = true)
    (hlegal : isValidMove s.board row col s.currentPlayer N = some true) :
    ∃ nb : Board, makeMove s.board row col s.currentPlayer N = some nb ∧
    ∃ s2 : GameSt, handleCellClick s row col N = some s2 ∧
      s2.board = nb ∧
      (HasMove nb (opponentOf s.currentPlayer) N →
        s2.currentPlayer = opponentOf s.currentPlayer ∧
        s2.gameOver = false ∧ s2.winner = s.winner) ∧
      (¬HasMove nb (opponentOf s.currentPlayer) N →
        HasMove nb s.currentPlayer N →
        s2.currentPlayer = s.currentPlayer ∧
        s2.gameOver = false ∧ s2.winner = s.winner) ∧
      (¬HasMove nb (opponentOf s.currentPlayer) N →
        ¬HasMove nb s.currentPlayer N →
        s2.gameOver = true ∧
        ((countPieces nb N).1 > (countPieces nb N).2 →
          s2.winner = some Winner.black) ∧
        ((countPieces nb N).2 > (countPieces nb N).1 →
          s2.winner = some Winner.white) ∧
        ((countPieces nb N).1 = (countPieces nb N).2 →
          s2.winner = some Winner.tie)) := by
  have hmk : makeMove s.board row col s.currentPlayer N
      = some (mutatePhase s.board row col s.currentPlayer N) := by
    simp [makeMove, hlegal]
  have hsqnb : IsSquare (mutatePhase s.board row col s.currentPlayer N) N :=
    (mutatePhase_getCell s.currentPlayer hsq hin).1
  obtain ⟨L1, hgv1, hiff1⟩ :=
    hasMove_iff_moves_ne_nil (opponentOf s.currentPlayer) hsqnb
  obtain ⟨L2, hgv2, hiff2⟩ :=
    hasMove_iff_moves_ne_nil s.currentPlayer hsqnb
  refine ⟨_, hmk, ?_⟩
  by_cases h1 : 0 < L1.length
  · refine ⟨{ s with
        board := mutatePhase s.board row col s.currentPlayer N,
        currentPlayer := opponentOf s.currentPlayer },
      ?_, rfl, ?_, ?_, ?_⟩
    · simp only [handleCellClick, hgo, Bool.false_eq_true, if_false, hlegal]
      simp only [Option.bind_eq_bind]
      rw [hmk, Option.some_bind, hgv1, Option.some_bind, hgv2,
        Option.some_bind]
      simp [h1]
    · intro hop
      exact ⟨rfl, hgo, rfl⟩
    · intro hnop hcur
      exact absurd (hiff1.1 h1) hnop
    · intro hnop hcur
      exact absurd (hiff1.1 h1) hnop
  · by_cases h2 : 0 < L2.length
    · refine ⟨{ s with
        board := mutatePhase s.board row col s.currentPlayer N }, ?_,
        rfl, ?_, ?_, ?_⟩
      · simp only [handleCellClick, hgo, Bool.false_eq_true, if_false,
          hlegal]
        simp only [Option.bind_eq_bind]
        rw [hmk, Option.some_bind, hgv1, Option.some_bind, hgv2,
          Option.some_bind]
        simp [h1, h2]
      · intro hop
        exact absurd (hiff1.2 hop) h1
      · intro hnop hcur
        exact ⟨rfl, hgo, rfl⟩
      · intro hnop hncur
        exact absurd (hiff2.1 h2) hncur
    · refine ⟨{ s with
        board := mutatePhase s.board row col s.currentPlayer N,
        gameOver := true,
        winner := some (if (countPieces (mutatePhase s.board row col s.currentPlayer N) N).1 > (countPieces (mutatePhase s.board row col s.currentPlayer N) N).2 then Winner.black else if (countPieces (mutatePhase s.board row col s.currentPlayer N) N).2 > (countPieces (mutatePhase s.board row col s.currentPlayer N) N).1 then Winner.white else Winner.tie) },
        ?_, rfl, ?_, ?_, ?_⟩
      · simp only [handleCellClick, hgo, Bool.false_eq_true, if_false,
          hlegal]
        simp only [Option.bind_eq_bind]
        rw [hmk, Option.some_bind, hgv1, Option.some_bind, hgv2,
          Option.some_bind]
        simp [h1, h2]
      · intro hop
        exact absurd (hiff1.2 hop) h1
      · intro hnop hcur
        exact absurd (hiff2.2 hcur) h2
      · intro hnop hncur
        refine ⟨rfl, ?_, ?_, ?_⟩
        · intro hgt
          simp [hgt]
        · intro hgt
          simp [hgt, Nat.lt_asymm hgt]
        · intro heq
          simp [heq]

/-- Witness for C5: black clicks `(2, 3)` on the fresh 8×8 game. -/
theorem C5_witness :
    ∃ nb : Board, makeMove (createInitialBoard 8) 2 3 Player.black 8
        = some nb ∧
    ∃ s2 : GameSt,
      handleCellClick ⟨createInitialBoard 8, Player.black, false, none⟩
          2 3 8 = some s2 ∧
      s2.board = nb ∧
      (HasMove nb (opponentOf Player.black) 8 →
        s2.currentPlayer = opponentOf Player.black ∧
        s2.gameOver = false ∧ s2.winner = none) ∧
      (¬HasMove nb (opponentOf Player.black) 8 →
        HasMove nb Player.black 8 →
        s2.currentPlayer = Player.black ∧
        s2.gameOver = false ∧ s2.winner = none) ∧
      (¬HasMove nb (opponentOf Player.black) 8 →
        ¬HasMove nb Player.black 8 →
        s2.gameOver = true ∧
        ((countPieces nb 8).1 > (countPieces nb 8).2 →
          s2.winner = some Winner.black) ∧
        ((countPieces nb 8).2 > (countPieces nb 8).1 →
          s2.winner = some Winner.white) ∧
        ((countPieces nb 8).1 = (countPieces nb 8).2 →
          s2.winner = some Winner.tie)) :=
  C5_turn_policy (s := ⟨createInitialBoard 8, Player.black, false, none⟩)
    (by decide) rfl (by decide) (by decide)

/-! ### No mutation of the argument board -/

theorem length_foldl_setCell (L : List (Int × Int)) (player : Player) :
    ∀ b : Board,
    (L.foldl (fun acc rc => setCell acc rc.1 rc.2 (some player)) b).length
      = b.length := by
  induction L with
  | nil => intro b; rfl
  | cons p L ih =>
    intro b
    rw [List.foldl_cons, ih, length_setCell]

theorem length_flipDir (b : Board) (row col : Int) (player : Player)
    (N : Nat) (d : Int × Int) :
    (flipDir b row col player N d).length = b.length := by
  unfold flipDir
  exact length_foldl_setCell _ player b

theorem length_mutatePhase (b : Board) (row col : Int) (player : Player)
    (N : Nat) : (mutatePhase b row col player N).length = b.length := by
  have hds : ∀ (ds : List (Int × Int)) (b0 : Board),
      (ds.foldl (fun a d => flipDir a row col player N d) b0).length
        = b0.length := by
    intro ds
    induction ds with
    | nil => intro b0; rfl
    | cons d rest ih =>
      intro b0
      rw [List.foldl_cons, ih, length_flipDir]
  unfold mutatePhase
  rw [hds directions (setCell b row col (some player)), length_setCell]

/-- Reading existing references is unaffected by appending rows to the
heap. -/
theorem readBoard_append {h : Heap} {refs : List Nat} (hwf : WFRefs h refs)
    (l2 : List (List Cell)) :
    readBoard ⟨h.rows ++ l2⟩ refs = readBoard h refs := by
  unfold readBoard readRow
  apply List.map_congr_left
  intro ref href
  exact List.getD_append _ _ _ _ (hwf ref href)

/-- Freshly appended rows read back exactly as written. -/
theorem map_getD_range' (l2 : List (List Cell)) :
    ∀ l1 : List (List Cell),
    (List.range' l1.length l2.length).map (fun ref => (l1 ++ l2).getD ref [])
      = l2 := by
  induction l2 with
  | nil => intro l1; rfl
  | cons x l2 ih =>
    intro l1
    rw [List.length_cons, List.range'_succ, List.map_cons]
    congr 1
    · rw [List.getD_append_right _ _ _ _ (le_refl _)]
      simp
    · have hsplit : l1 ++ x :: l2 = (l1 ++ [x]) ++ l2 := by simp
      have hlen : l1.length + 1 = (l1 ++ [x]).length := by simp
      rw [hsplit, hlen]
      exact ih (l1 ++ [x])

/-- C9: at the reference level, `makeMove` never mutates the rows its
argument board points at — after the call the input board reads back
cell-for-cell unchanged — an illegal move returns the very same references
and heap, and a legal move returns a freshly allocated board (references
disjoint from the input's) holding the flipped position. -/
theorem C9_no_mutation {h : Heap} {refs : List Nat} {row col : Int}
    {player : Player} {N : Nat} (hwf : WFRefs h refs) :
    ∀ res : Heap × List Nat,
      makeMoveHeap h refs row col player N = some res →
      readBoard res.1 refs = readBoard h refs ∧
      (isValidMove (readBoard h refs) row col player N = some false →
        res = (h, refs)) ∧
      (isValidMove (readBoard h refs) row col player N = some true →
        (∀ ref2 ∈ res.2, ref2 ∉ refs) ∧
        readBoard res.1 res.2
          = mutatePhase (readBoard h refs) row col player N) := by
  intro res hres
  cases hv : isValidMove (readBoard h refs) row col player N with
  | none =>
    simp only [makeMoveHeap, hv] at hres
    cases hres
  | some b =>
    cases b with
    | false =>
      simp only [makeMoveHeap, hv] at hres
      injection hres with hres
      subst hres
      refine ⟨rfl, fun _ => rfl, fun htrue => ?_⟩
      cases htrue
    | true =>
      simp only [makeMoveHeap, hv] at hres
      injection hres with hres
      subst hres
      refine ⟨readBoard_append hwf _, fun hfalse => ?_, fun _ => ⟨?_, ?_⟩⟩
      · cases hfalse
      · intro ref2 hr2 hr2refs
        have hlt := hwf ref2 hr2refs
        rw [List.mem_range'] at hr2
        obtain ⟨i, hi, rfl⟩ := hr2
        omega
      · show (List.range' h.rows.length refs.length).map
            (readRow ⟨h.rows ++ mutatePhase (readBoard h refs) row col
              player N⟩)
          = mutatePhase (readBoard h refs) row col player N
        have hlen : refs.length
            = (mutatePhase (readBoard h refs) row col player N).length := by
          rw [length_mutatePhase]
          unfold readBoard
          rw [List.length_map]
        rw [hlen]
        exact map_getD_range' _ h.rows

/-- Witness for C9: a well-formed heap holding the 8×8 initial board, with
black moving at `(2, 3)`; the result of `makeMoveHeap` is spelled out. -/
theorem C9_witness :
    readBoard (⟨createInitialBoard 8 ++ mutatePhase
        (readBoard ⟨createInitialBoard 8⟩ [0, 1, 2, 3, 4, 5, 6, 7])
        2 3 Player.black 8⟩ : Heap) [0, 1, 2, 3, 4, 5, 6, 7]
      = readBoard ⟨createInitialBoard 8⟩ [0, 1, 2, 3, 4, 5, 6, 7] ∧
    (isValidMove (readBoard ⟨createInitialBoard 8⟩ [0, 1, 2, 3, 4, 5, 6, 7])
        2 3 Player.black 8 = some false →
      ((⟨createInitialBoard 8 ++ mutatePhase
          (readBoard ⟨createInitialBoard 8⟩ [0, 1, 2, 3, 4, 5, 6, 7])
          2 3 Player.black 8⟩ : Heap), List.range' 8 8)
        = (⟨createInitialBoard 8⟩, [0, 1, 2, 3, 4, 5, 6, 7])) ∧
    (isValidMove (readBoard ⟨createInitialBoard 8⟩ [0, 1, 2, 3, 4, 5, 6, 7])
        2 3 Player.black 8 = some true →
      (∀ ref2 ∈ List.range' 8 8, ref2 ∉ [0, 1, 2, 3, 4, 5, 6, 7]) ∧
      readBoard (⟨createInitialBoard 8 ++ mutatePhase
          (readBoard ⟨createInitialBoard 8⟩ [0, 1, 2, 3, 4, 5, 6, 7])
          2 3 Player.black 8⟩ : Heap) (List.range' 8 8)
        = mutatePhase
            (readBoard ⟨createInitialBoard 8⟩ [0, 1, 2, 3, 4, 5, 6, 7])
            2 3 Player.black 8) :=
  C9_no_mutation (by decide)
    ((⟨createInitialBoard 8 ++ mutatePhase
        (readBoard ⟨createInitialBoard 8⟩ [0, 1, 2, 3, 4, 5, 6, 7])
        2 3 Player.black 8⟩ : Heap), List.range' 8 8)
    (by decide)

end Othello
